import Mathlib

/-!
Verification of the WordleAI constraint-and-strategy engine.

This file gives a shallow embedding, in Lean 4, of the core of the WordleAI
repository (packages/engine, packages/harness, packages/agent,
packages/solvers) and proves properties of that embedding.

Modelling conventions:
* Python strings are `String`; `str.strip().lower()` is `normWord`, built from
  ASCII classifiers defined over `Char.toNat` (the words handled by the engine
  are ASCII).
* `collections.Counter` is modelled by a `List Char` of letters, queried with
  `List.count` and decremented with `List.erase`; Python dicts keyed by strings
  are modelled by association lists with overwrite-on-insert (`dictInsert`),
  which reproduces dict lookup/update semantics.
* Fallible Python code (an `assert`, an `IndexError` or a `KeyError`) is
  modelled with `Option`: `none` is an exception escaping the function.
* Wall-clock measurements are inputs of the model (a `Rat` parameter), since
  real time is outside a shallow embedding.  Float arithmetic on small
  integers and quarters is exact, and is modelled by `Rat`; the two
  transcendental primitives that the code uses (`math.log2`, `np.sqrt`) and
  `np.linalg.inv` are uninterpreted function parameters, and random draws
  (`random.randrange`, `random.sample`) are oracle parameters.
-/

/-! ### ASCII character primitives (Python `str.strip`, `str.lower`, `str.isalpha`) -/

/-- Whitespace characters removed by Python `str.strip` (ASCII range). -/
def isSpaceChar (c : Char) : Bool :=
  c.toNat = 32 || c.toNat = 9 || c.toNat = 10 || c.toNat = 13 || c.toNat = 11 || c.toNat = 12

/-- ASCII lower-casing of one character, as Python `str.lower` acts on ASCII. -/
def pyCharLower (c : Char) : Char :=
  if 65 ≤ c.toNat ∧ c.toNat ≤ 90 then Char.ofNat (c.toNat + 32) else c

/-- ASCII alphabetic test for one character, as Python `str.isalpha` acts on ASCII. -/
def isAlphaChar (c : Char) : Bool :=
  (65 ≤ c.toNat && c.toNat ≤ 90) || (97 ≤ c.toNat && c.toNat ≤ 122)

/-- Lower-case ASCII letter (a "clean" character: `strip`/`lower` leave it unchanged). -/
def isLowerAZ (c : Char) : Bool :=
  97 ≤ c.toNat && c.toNat ≤ 122

/-- Python `str.strip` on a list of characters. -/
def stripChars (l : List Char) : List Char :=
  ((l.dropWhile isSpaceChar).reverse.dropWhile isSpaceChar).reverse

/-- Python `s.strip().lower()`: the normalisation applied by the engine. -/
def normWord (s : String) : String :=
  String.mk ((stripChars s.data).map pyCharLower)

/-- Python `s.lower()` (no strip), as used by the bandit environment. -/
def pyLower (s : String) : String :=
  String.mk (s.data.map pyCharLower)

/-- Python `s.isalpha()`: non-empty and all alphabetic. -/
def pyIsAlpha (s : String) : Bool :=
  !s.data.isEmpty && s.data.all isAlphaChar

/-- A clean engine word: non-empty, all lower-case ASCII letters.  These are the
words that word lists provide and that `normWord` leaves unchanged. -/
def isCleanWord (s : String) : Bool :=
  !s.data.isEmpty && s.data.all isLowerAZ

lemma isLowerAZ_not_space {c : Char} (h : isLowerAZ c = true) : isSpaceChar c = false := by
  simp only [isLowerAZ, Bool.and_eq_true, decide_eq_true_eq] at h
  simp only [isSpaceChar, Bool.or_eq_false_iff, decide_eq_false_iff_not]
  omega

lemma isLowerAZ_pyCharLower {c : Char} (h : isLowerAZ c = true) : pyCharLower c = c := by
  simp only [isLowerAZ, Bool.and_eq_true, decide_eq_true_eq] at h
  simp only [pyCharLower]
  rw [if_neg (by omega)]

lemma isAlphaChar_not_space {c : Char} (h : isAlphaChar c = true) : isSpaceChar c = false := by
  simp only [isAlphaChar, Bool.or_eq_true, Bool.and_eq_true, decide_eq_true_eq] at h
  simp only [isSpaceChar, Bool.or_eq_false_iff, decide_eq_false_iff_not]
  omega

lemma dropWhile_eq_self_of_all {p : Char → Bool} {l : List Char}
    (h : ∀ c ∈ l, p c = false) : l.dropWhile p = l := by
  cases l with
  | nil => rfl
  | cons a l =>
    simp only [List.dropWhile]
    rw [h a (List.mem_cons_self a l)]

lemma stripChars_of_all {l : List Char} (h : ∀ c ∈ l, isSpaceChar c = false) :
    stripChars l = l := by
  unfold stripChars
  rw [dropWhile_eq_self_of_all h,
    dropWhile_eq_self_of_all (fun c hc => h c (List.mem_reverse.mp hc)), List.reverse_reverse]

/-- Clean words are fixed points of the engine's normalisation. -/
lemma normWord_of_clean {s : String} (h : isCleanWord s = true) : normWord s = s := by
  simp only [isCleanWord, Bool.and_eq_true, List.all_eq_true] at h
  obtain ⟨-, hall⟩ := h
  unfold normWord
  rw [stripChars_of_all (fun c hc => isLowerAZ_not_space (hall c hc))]
  rw [List.map_congr_left (fun c hc => isLowerAZ_pyCharLower (hall c hc)), List.map_id']

/-- `strip` does not change an alphabetic string. -/
lemma stripChars_of_alpha {l : List Char} (h : ∀ c ∈ l, isAlphaChar c = true) :
    stripChars l = l :=
  stripChars_of_all (fun c hc => isAlphaChar_not_space (h c hc))

lemma length_normWord_of_alpha {s : String} (h : pyIsAlpha s = true) :
    (normWord s).length = s.length := by
  simp only [pyIsAlpha, Bool.and_eq_true, List.all_eq_true] at h
  show ((stripChars s.data).map pyCharLower).length = s.data.length
  rw [stripChars_of_alpha h.2, List.length_map]

/-! ### The Scorer (`packages/engine/scoring.py`, function `score`)

Pass 1 marks greens and collects the multiset of unmatched answer letters;
pass 2 walks the guess left to right turning grays into yellows while the
letter still has remaining availability. -/

/-- Pass 1 of `score`: position-wise greens, plus the remaining (non-green)
answer letters, playing the role of the `Counter` named `remaining`. -/
def scorePass1 : List Char → List Char → List Char × List Char
  | g :: gs, a :: as_ =>
    let (p, rem) := scorePass1 gs as_
    if g = a then ('G' :: p, rem) else ('-' :: p, a :: rem)
  | _, _ => ([], [])

/-- Pass 2 of `score`: each (pattern, guess) position becomes yellow when the
guessed letter still has remaining availability, consuming one instance. -/
def scorePass2 : List (Char × Char) → List Char → List Char
  | [], _ => []
  | (p, g) :: rest, rem =>
    if p = 'G' then 'G' :: scorePass2 rest rem
    else if 0 < rem.count g then 'Y' :: scorePass2 rest (rem.erase g)
    else '-' :: scorePass2 rest rem

/-- Two-pass scoring on (already normalised) character lists. -/
def scoreChars (g a : List Char) : List Char :=
  let pr := scorePass1 g a
  scorePass2 (pr.1.zip g) pr.2

/-- `score(guess, answer)` from `packages/engine/scoring.py`.  Both inputs are
normalised with `strip().lower()`; the length assertion is modelled by
returning `none` when it fires. -/
def score (guess answer : String) : Option String :=
  let g := normWord guess
  let a := normWord answer
  if g.length = a.length then some (String.mk (scoreChars g.data a.data)) else none

/-! ### The Consistency Filter (`packages/engine/constraints.py`) -/

/-- The inner loop of `filter_candidates`: check the (normalised) word against
every recorded (guess, pattern) pair, stopping at the first mismatch; `none`
models the scorer's assertion failing on a length mismatch. -/
def checkHistory (w : String) : List (String × String) → Option Bool
  | [] => some true
  | (g, patt) :: rest =>
    match score g w with
    | none => none
    | some p => if p = patt then checkHistory w rest else some false

/-- `filter_candidates(words, history, N)` from `packages/engine/constraints.py`:
keep, in order, the normalised words of length `N` that are alphabetic and
reproduce every recorded pattern. -/
def filter_candidates (words : List String) (history : List (String × String)) (N : Nat) :
    Option (List String) :=
  match words with
  | [] => some []
  | w :: rest =>
    let w' := normWord w
    if w'.length = N ∧ pyIsAlpha w' = true then
      match checkHistory w' history with
      | none => none
      | some true => (filter_candidates rest history N).map (fun l => w' :: l)
      | some false => filter_candidates rest history N
    else
      filter_candidates rest history N

/-! ### Characterisation of the Scorer (claim C1) -/

/-- Number of non-green occurrences of the letter `c` among the first `i+1`
positions of the guess (the occurrence at `i` included): pass 2 processes them
left to right. -/
def yellowOcc (g a : List Char) (i : Nat) (c : Char) : Nat :=
  ((g.zip a).take (i+1)).countP (fun x => !(x.1 == x.2) && (x.1 == c))

/-- Number of unmatched (non-green) copies of the letter `c` in the answer:
the availability that caps yellow assignments. -/
def yellowAvail (g a : List Char) (c : Char) : Nat :=
  (g.zip a).countP (fun x => !(x.1 == x.2) && (x.2 == c))

lemma scorePass2_length (pairs : List (Char × Char)) (rem : List Char) :
    (scorePass2 pairs rem).length = pairs.length := by
  induction pairs generalizing rem with
  | nil => rfl
  | cons x rest ih =>
    obtain ⟨p, g⟩ := x
    simp only [scorePass2]
    split
    · simpa using ih rem
    · split
      · simpa using ih (rem.erase g)
      · simpa using ih rem


lemma iteTrueOne : (if (true = true) then (1:Nat) else 0) = 1 := rfl

lemma iteFalseZero : (if (false = true) then (1:Nat) else 0) = 0 := rfl

lemma scorePass2_getElem? (pairs : List (Char × Char)) (rem : List Char) (i : Nat)
    (p g : Char) (hi : pairs[i]? = some (p, g)) :
    (scorePass2 pairs rem)[i]? = some (
      if p = 'G' then 'G'
      else if ((pairs.take (i+1)).countP (fun x => !(x.1 == 'G') && (x.2 == g)))
              ≤ rem.count g
      then 'Y' else '-') := by
  induction pairs generalizing rem i with
  | nil => simp at hi
  | cons x rest ih =>
    obtain ⟨q, h⟩ := x
    cases i with
    | zero =>
      rw [List.getElem?_cons_zero, Option.some_inj, Prod.mk.injEq] at hi
      obtain ⟨rfl, rfl⟩ := hi
      rw [List.take_succ_cons, List.take_zero, List.countP_cons, List.countP_nil]
      by_cases hq : q = 'G'
      · simp [scorePass2, hq]
      · have hpred : (!((q, h).1 == 'G') && ((q, h).2 == h)) = true := by simp [hq]
        rw [if_neg hq, hpred, iteTrueOne]
        by_cases hc : 0 < List.count h rem
        · have hL : (scorePass2 ((q, h) :: rest) rem)[0]? = some 'Y' := by
            simp only [scorePass2, if_neg hq, if_pos hc, List.getElem?_cons_zero]
          rw [hL, if_pos (by omega)]
        · have hL : (scorePass2 ((q, h) :: rest) rem)[0]? = some '-' := by
            simp only [scorePass2, if_neg hq, if_neg hc, List.getElem?_cons_zero]
          rw [hL, if_neg (by omega)]
    | succ j =>
      rw [List.getElem?_cons_succ] at hi
      rw [List.take_succ_cons, List.countP_cons]
      by_cases hq : q = 'G'
      · have hL : (scorePass2 ((q, h) :: rest) rem)[j+1]? = (scorePass2 rest rem)[j]? := by
          simp only [scorePass2, if_pos hq, List.getElem?_cons_succ]
        have hpred : (!((q, h).1 == 'G') && ((q, h).2 == g)) = false := by simp [hq]
        rw [hL, ih rem j hi, hpred, iteFalseZero]
        rfl
      · by_cases hc : 0 < List.count h rem
        · have hL : (scorePass2 ((q, h) :: rest) rem)[j+1]?
              = (scorePass2 rest (rem.erase h))[j]? := by
            simp only [scorePass2, if_neg hq, if_pos hc, List.getElem?_cons_succ]
          rw [hL, ih (rem.erase h) j hi]
          by_cases hp : p = 'G'
          · rw [if_pos hp, if_pos hp]
          · rw [if_neg hp, if_neg hp]
            have hce : List.count g (rem.erase h) =
                List.count g rem - if h = g then 1 else 0 := by
              rw [List.count_erase]
              by_cases hhg : h = g
              · rw [if_pos hhg, if_pos (by simp [hhg])]
              · rw [if_neg hhg, if_neg (by simp [hhg])]
            by_cases hhg : h = g
            · have hpred : (!((q, h).1 == 'G') && ((q, h).2 == g)) = true := by
                simp [hq, hhg]
              rw [hpred, iteTrueOne, hce, if_pos hhg]
              have h1 : 0 < List.count g rem := by
                rw [hhg] at hc
                exact hc
              by_cases hle : (rest.take (j+1)).countP (fun x => !(x.1 == 'G') && (x.2 == g))
                  + 1 ≤ List.count g rem
              · rw [if_pos (by omega), if_pos hle]
              · rw [if_neg (by omega), if_neg hle]
            · have hpred : (!((q, h).1 == 'G') && ((q, h).2 == g)) = false := by
                simp [hhg]
              rw [hpred, iteFalseZero, hce, if_neg hhg, Nat.sub_zero]
              rfl
        · have hL : (scorePass2 ((q, h) :: rest) rem)[j+1]?
              = (scorePass2 rest rem)[j]? := by
            simp only [scorePass2, if_neg hq, if_neg hc, List.getElem?_cons_succ]
          rw [hL, ih rem j hi]
          by_cases hp : p = 'G'
          · rw [if_pos hp, if_pos hp]
          · rw [if_neg hp, if_neg hp]
            by_cases hhg : h = g
            · have hpred : (!((q, h).1 == 'G') && ((q, h).2 == g)) = true := by
                simp [hq, hhg]
              rw [hpred, iteTrueOne]
              have hc0 : List.count g rem = 0 := by
                rw [hhg] at hc
                omega
              have hmem : (p, g) ∈ rest.take (j+1) := by
                apply List.getElem?_mem (n := j)
                rw [List.getElem?_take]
                simp [hi]
              have hcnt : 0 < (rest.take (j+1)).countP
                  (fun x => !(x.1 == 'G') && (x.2 == g)) := by
                rw [List.countP_pos_iff]
                exact ⟨(p, g), hmem, by simp [hp]⟩
              rw [if_neg (by omega), if_neg (by omega)]
            · have hpred : (!((q, h).1 == 'G') && ((q, h).2 == g)) = false := by
                simp [hhg]
              rw [hpred, iteFalseZero]
              rfl

lemma scorePass1_eq (g a : List Char) :
    scorePass1 g a = (List.zipWith (fun x y => if x = y then 'G' else '-') g a,
      ((g.zip a).filter (fun x => !(x.1 == x.2))).map Prod.snd) := by
  induction g generalizing a with
  | nil => cases a <;> rfl
  | cons c gs ih =>
    cases a with
    | nil => rfl
    | cons d as_ =>
      simp only [scorePass1, ih, List.zipWith_cons_cons, List.zip_cons_cons, List.filter_cons]
      by_cases h : c = d
      · simp [h]
      · simp [h]

lemma scorePass1_fst_zip (g a : List Char) (h : g.length = a.length) :
    (scorePass1 g a).1.zip g
      = (g.zip a).map (fun x => ((if x.1 = x.2 then 'G' else '-'), x.1)) := by
  rw [scorePass1_eq]
  induction g generalizing a with
  | nil => simp
  | cons c gs ih =>
    cases a with
    | nil => simp at h
    | cons d as_ =>
      simp only [List.zipWith_cons_cons, List.zip_cons_cons, List.map_cons]
      have hlen : gs.length = as_.length := by
        simpa using h
      rw [ih as_ hlen]

lemma scoreChars_length (g a : List Char) (h : g.length = a.length) :
    (scoreChars g a).length = g.length := by
  unfold scoreChars
  rw [scorePass2_length, List.length_zip, scorePass1_eq]
  simp [h]

lemma scoreChars_getElem? (g a : List Char) (h : g.length = a.length) (i : Nat)
    (gi ai : Char) (hg : g[i]? = some gi) (ha : a[i]? = some ai) :
    (scoreChars g a)[i]? = some (if gi = ai then 'G'
      else if yellowOcc g a i gi ≤ yellowAvail g a gi then 'Y' else '-') := by
  have hz : (g.zip a)[i]? = some (gi, ai) := by
    rw [List.getElem?_zip_eq_some]
    exact ⟨hg, ha⟩
  have hpair : ((scorePass1 g a).1.zip g)[i]?
      = some ((if gi = ai then 'G' else '-'), gi) := by
    rw [scorePass1_fst_zip g a h, List.getElem?_map, hz]
    rfl
  have hmain := scorePass2_getElem? ((scorePass1 g a).1.zip g) (scorePass1 g a).2 i
    (if gi = ai then 'G' else '-') gi hpair
  have hchars : scoreChars g a = scorePass2 ((scorePass1 g a).1.zip g) (scorePass1 g a).2 := rfl
  rw [hchars, hmain]
  have hcount : ((scorePass1 g a).1.zip g).take (i+1)
      = ((g.zip a).take (i+1)).map (fun x => ((if x.1 = x.2 then 'G' else '-'), x.1)) := by
    rw [scorePass1_fst_zip g a h, List.map_take]
  have hcnt1 : (((scorePass1 g a).1.zip g).take (i+1)).countP
        (fun x => !(x.1 == 'G') && (x.2 == gi))
      = yellowOcc g a i gi := by
    rw [hcount, List.countP_map]
    unfold yellowOcc
    apply List.countP_congr
    intro x _
    by_cases hx : x.1 = x.2
    · simp [hx]
    · simp [hx]
  have hcnt2 : (scorePass1 g a).2.count gi = yellowAvail g a gi := by
    rw [scorePass1_eq]
    simp only [List.count_eq_countP, List.countP_map, List.countP_filter]
    unfold yellowAvail
    apply List.countP_congr
    intro x _
    by_cases hx : x.1 = x.2
    · simp [hx]
    · by_cases hxg : x.2 = gi
      · simp [hx, hxg]
      · simp [hx, hxg]
  rw [hcnt1, hcnt2]
  by_cases hga : gi = ai
  · subst hga
    simp
  · rw [if_neg hga, if_neg hga, if_neg (by decide)]

lemma scorePass2_count_yellow (pairs : List (Char × Char)) (rem : List Char) (c : Char) :
    ((scorePass2 pairs rem).zip (pairs.map Prod.snd)).countP
      (fun x => (x.1 == 'Y') && (x.2 == c)) ≤ rem.count c := by
  induction pairs generalizing rem with
  | nil => simp [scorePass2]
  | cons x rest ih =>
    obtain ⟨q, h⟩ := x
    simp only [scorePass2, List.map_cons]
    by_cases hq : q = 'G'
    · rw [if_pos hq, List.zip_cons_cons, List.countP_cons]
      have hp : (((('G' : Char), h).1 == 'Y') && ((('G' : Char), h).2 == c)) = false := by
        simp
      rw [hp, iteFalseZero]
      have := ih rem
      omega
    · rw [if_neg hq]
      by_cases hc : 0 < List.count h rem
      · rw [if_pos hc, List.zip_cons_cons, List.countP_cons]
        have hce : List.count c (rem.erase h) =
            List.count c rem - if h = c then 1 else 0 := by
          rw [List.count_erase]
          by_cases hhc : h = c
          · rw [if_pos hhc, if_pos (by simp [hhc])]
          · rw [if_neg hhc, if_neg (by simp [hhc])]
        by_cases hhc : h = c
        · have hp : (((('Y' : Char), h).1 == 'Y') && ((('Y' : Char), h).2 == c)) = true := by
            simp [hhc]
          rw [hp, iteTrueOne]
          have := ih (rem.erase h)
          rw [hce, if_pos hhc] at this
          subst hhc
          omega
        · have hp : (((('Y' : Char), h).1 == 'Y') && ((('Y' : Char), h).2 == c)) = false := by
            simp [hhc]
          rw [hp, iteFalseZero]
          have := ih (rem.erase h)
          rw [hce, if_neg hhc] at this
          omega
      · rw [if_neg hc, List.zip_cons_cons, List.countP_cons]
        have hp : (((('-' : Char), h).1 == 'Y') && ((('-' : Char), h).2 == c)) = false := by
          simp
        rw [hp, iteFalseZero]
        have := ih rem
        omega

lemma scoreChars_yellow_cap (g a : List Char) (h : g.length = a.length) (c : Char) :
    ((scoreChars g a).zip g).countP (fun x => (x.1 == 'Y') && (x.2 == c)) ≤ a.count c := by
  have hsnd : ((scorePass1 g a).1.zip g).map Prod.snd = g := by
    apply List.map_snd_zip
    rw [scorePass1_eq]
    simp [h]
  have h1 := scorePass2_count_yellow ((scorePass1 g a).1.zip g) (scorePass1 g a).2 c
  rw [hsnd] at h1
  have hchars : scoreChars g a = scorePass2 ((scorePass1 g a).1.zip g) (scorePass1 g a).2 := rfl
  rw [hchars]
  refine le_trans h1 ?_
  rw [scorePass1_eq]
  simp only [List.count_eq_countP, List.countP_map, List.countP_filter]
  have h2 : List.map Prod.snd (g.zip a) = a := List.map_snd_zip g a (le_of_eq h.symm)
  calc List.countP (fun x => ((fun y => y == c) ∘ Prod.snd) x && !(x.1 == x.2)) (g.zip a)
      ≤ List.countP ((fun y => y == c) ∘ Prod.snd) (g.zip a) := by
        apply List.countP_mono_left
        intro x _ hx
        simp only [Bool.and_eq_true] at hx
        exact hx.1
    _ = List.countP (fun y => y == c) (List.map Prod.snd (g.zip a)) := by
        rw [List.countP_map]
    _ = List.countP (fun y => y == c) a := by rw [h2]

/-- C1: for every pair of words whose normalised forms have equal length,
`score` succeeds and returns a pattern of that length in which position `i` is
Green exactly when the lower-cased guess and answer agree at `i`, is Yellow
exactly when the letter's left-to-right non-green occurrence index is still
covered by the answer's unmatched copies of that letter, and is Gray
otherwise; consequently Yellow assignments for each letter are capped by that
letter's multiplicity in the answer.  The three duplicate-letter examples of
the specification are included. -/
theorem score_spec (guess answer : String)
    (h : (normWord guess).length = (normWord answer).length) :
    (∃ p : String, score guess answer = some p ∧
      p.length = (normWord guess).length ∧
      (∀ i gi ai, (normWord guess).data[i]? = some gi →
          (normWord answer).data[i]? = some ai →
          p.data[i]? = some (if gi = ai then 'G'
            else if yellowOcc (normWord guess).data (normWord answer).data i gi
                    ≤ yellowAvail (normWord guess).data (normWord answer).data gi
                 then 'Y' else '-')) ∧
      (∀ c, ((p.data.zip (normWord guess).data).countP
                (fun x => (x.1 == 'Y') && (x.2 == c)))
              ≤ (normWord answer).data.count c)) ∧
    (score "belle" "level" = some "-GYYY" ∧ score "lemon" "level" = some "GG---" ∧
      score "cools" "scoop" = some "YYG-Y") := by
  have hd : (normWord guess).data.length = (normWord answer).data.length := h
  refine ⟨⟨String.mk (scoreChars (normWord guess).data (normWord answer).data),
    ?_, ?_, ?_, ?_⟩, rfl, rfl, rfl⟩
  · simp only [score]
    rw [if_pos h]
  · show (scoreChars (normWord guess).data (normWord answer).data).length
        = (normWord guess).length
    rw [scoreChars_length _ _ hd]
    rfl
  · intro i gi ai hg ha
    exact scoreChars_getElem? _ _ hd i gi ai hg ha
  · intro c
    exact scoreChars_yellow_cap _ _ hd c

/-- Witness for `score_spec`, instantiated at the specification's examples. -/
theorem score_spec_witness :
    score "belle" "level" = some "-GYYY" ∧ score "lemon" "level" = some "GG---" ∧
      score "cools" "scoop" = some "YYG-Y" :=
  (score_spec "belle" "level" rfl).2

/-! ### Characterisation of the Consistency Filter (claims C2, C3) -/

lemma score_isSome_iff (g w : String) :
    (score g w).isSome = true ↔ (normWord g).length = (normWord w).length := by
  unfold score
  by_cases h : (normWord g).length = (normWord w).length
  · simp [h]
  · simp [h]

lemma clean_length_alpha {w : String} (h : isCleanWord w = true) : pyIsAlpha w = true := by
  simp only [isCleanWord, Bool.and_eq_true, List.all_eq_true] at h
  simp only [pyIsAlpha, Bool.and_eq_true, List.all_eq_true]
  refine ⟨h.1, fun c hc => ?_⟩
  have := h.2 c hc
  simp only [isLowerAZ, Bool.and_eq_true, decide_eq_true_eq] at this
  simp only [isAlphaChar, Bool.or_eq_true, Bool.and_eq_true, decide_eq_true_eq]
  omega

lemma checkHistory_spec (w : String) (history : List (String × String))
    (hs : ∀ gp ∈ history, (score gp.1 w).isSome = true) :
    checkHistory w history
      = some (history.all (fun gp => score gp.1 w == some gp.2)) := by
  induction history with
  | nil => rfl
  | cons gp rest ih =>
    obtain ⟨g, patt⟩ := gp
    obtain ⟨p, hp⟩ := Option.isSome_iff_exists.mp (hs (g, patt) (List.mem_cons_self _ _))
    simp only [checkHistory, hp, List.all_cons]
    by_cases hpe : p = patt
    · subst hpe
      rw [if_pos rfl, ih (fun x hx => hs x (List.mem_cons_of_mem _ hx))]
      simp
    · rw [if_neg hpe]
      have hbe : (some p == some patt) = false := by
        simp [hpe]
      rw [hbe, Bool.false_and]

/-- The hygiene-plus-consistency predicate that `filter_candidates` applies to
each normalised word. -/
def keepWord (history : List (String × String)) (N : Nat) (w : String) : Bool :=
  (decide (w.length = N) && pyIsAlpha w) && history.all (fun gp => score gp.1 w == some gp.2)

lemma score_isSome_of_norm (g w : String) (N : Nat)
    (hg : (normWord g).length = N) (hwN : w.length = N) (hwA : pyIsAlpha w = true) :
    (score g w).isSome = true := by
  rw [score_isSome_iff, hg, length_normWord_of_alpha hwA, hwN]

lemma filter_candidates_eq (words : List String) (history : List (String × String)) (N : Nat)
    (hg : ∀ gp ∈ history, (normWord gp.1).length = N) :
    filter_candidates words history N
      = some ((words.map normWord).filter (keepWord history N)) := by
  induction words with
  | nil => rfl
  | cons w rest ih =>
    simp only [filter_candidates, List.map_cons, List.filter_cons]
    by_cases hh : (normWord w).length = N ∧ pyIsAlpha (normWord w) = true
    · rw [if_pos hh]
      have hs : ∀ gp ∈ history, (score gp.1 (normWord w)).isSome = true :=
        fun gp hgp => score_isSome_of_norm gp.1 (normWord w) N (hg gp hgp) hh.1 hh.2
      rw [checkHistory_spec (normWord w) history hs]
      by_cases hall : history.all (fun gp => score gp.1 (normWord w) == some gp.2) = true
      · rw [hall, ih]
        have : keepWord history N (normWord w) = true := by
          simp [keepWord, hh.1, hh.2, hall]
        rw [this]
        rfl
      · rw [Bool.not_eq_true] at hall
        have hk : keepWord history N (normWord w) = false := by
          simp [keepWord, hall]
        rw [hall, hk]
        exact ih
    · have hk : keepWord history N (normWord w) = false := by
        simp only [keepWord, Bool.and_eq_false_iff]
        left
        rcases Decidable.not_and_iff_or_not.mp hh with h1 | h2
        · left
          simpa using h1
        · right
          simpa using h2
      rw [if_neg hh, hk]
      exact ih

/-- C2: on a clean pool and a history of length-`N` guesses, `filter_candidates`
returns (without raising) the sub-list, in pool order, of exactly those words
of length `N` that are alphabetic and reproduce every recorded pattern; in
particular the output is never longer than the input, and on the
specification's seven-word example with history `("raise", "YY--G")` the result
keeps `"crane"` and drops `"stare"` and `"scoop"`. -/
theorem filter_candidates_spec (pool : List String) (history : List (String × String)) (N : Nat)
    (hclean : ∀ w ∈ pool, isCleanWord w = true)
    (hg : ∀ gp ∈ history, (normWord gp.1).length = N) :
    (∃ l, filter_candidates pool history N = some l ∧
      l.Sublist pool ∧ l.length ≤ pool.length ∧
      (∀ w, w ∈ l ↔ w ∈ pool ∧ w.length = N ∧ pyIsAlpha w = true ∧
        ∀ gp ∈ history, score gp.1 w = some gp.2)) ∧
    (∃ ex, filter_candidates ["crane","raise","stare","trace","cared","racer","scoop"]
        [("raise","YY--G")] 5 = some ex ∧ "crane" ∈ ex ∧ "stare" ∉ ex ∧ "scoop" ∉ ex) := by
  constructor
  · have hmap : pool.map normWord = pool :=
      List.map_congr_left (fun w hw => normWord_of_clean (hclean w hw)) |>.trans (List.map_id' pool)
    refine ⟨pool.filter (keepWord history N), ?_, ?_, ?_, ?_⟩
    · rw [filter_candidates_eq pool history N hg, hmap]
    · exact List.filter_sublist pool
    · exact (List.filter_sublist pool).length_le
    · intro w
      rw [List.mem_filter]
      constructor
      · rintro ⟨hwp, hkeep⟩
        simp only [keepWord, Bool.and_eq_true, decide_eq_true_eq, List.all_eq_true] at hkeep
        refine ⟨hwp, hkeep.1.1, hkeep.1.2, fun gp hgp => ?_⟩
        have := hkeep.2 gp hgp
        simpa using this
      · rintro ⟨hwp, hlen, halpha, hcons⟩
        refine ⟨hwp, ?_⟩
        simp only [keepWord, Bool.and_eq_true, decide_eq_true_eq, List.all_eq_true]
        exact ⟨⟨hlen, halpha⟩, fun gp hgp => by simp [hcons gp hgp]⟩
  · exact ⟨["crane", "trace"], rfl, by simp, by simp, by simp⟩

/-- Witness for `filter_candidates_spec`: the specification's example pool. -/
theorem filter_candidates_spec_witness :
    ∃ ex, filter_candidates ["crane","raise","stare","trace","cared","racer","scoop"]
        [("raise","YY--G")] 5 = some ex ∧ "crane" ∈ ex ∧ "stare" ∉ ex ∧ "scoop" ∉ ex :=
  (filter_candidates_spec ["crane","raise","stare","trace","cared","racer","scoop"]
    [("raise","YY--G")] 5 (by decide) (by decide)).2

/-- C3: soundness of filtering.  For a clean, length-`N` hidden answer present
in the pool, and any history every pair of which was produced by scoring a
guess against that answer, the answer survives `filter_candidates` (and the
filter itself raises no exception). -/
theorem filter_candidates_sound (pool : List String) (a : String)
    (history : List (String × String)) (N : Nat)
    (hca : isCleanWord a = true) (haN : a.length = N) (hmem : a ∈ pool)
    (hhist : ∀ gp ∈ history, score gp.1 a = some gp.2) :
    ∃ l, filter_candidates pool history N = some l ∧ a ∈ l := by
  have halpha : pyIsAlpha a = true := clean_length_alpha hca
  have hna : normWord a = a := normWord_of_clean hca
  have hg : ∀ gp ∈ history, (normWord gp.1).length = N := by
    intro gp hgp
    have hsome : (score gp.1 a).isSome = true := by
      rw [hhist gp hgp]
      rfl
    rw [score_isSome_iff] at hsome
    rw [hsome, hna, haN]
  refine ⟨(pool.map normWord).filter (keepWord history N),
    filter_candidates_eq pool history N hg, ?_⟩
  rw [List.mem_filter]
  constructor
  · rw [← hna]
    exact List.mem_map_of_mem normWord hmem
  · simp only [keepWord, Bool.and_eq_true, decide_eq_true_eq, List.all_eq_true]
    exact ⟨⟨haN, halpha⟩, fun gp hgp => by simp [hhist gp hgp]⟩

/-- Witness for `filter_candidates_sound`: the answer `"crane"` survives the
history produced by scoring `"raise"` against it. -/
theorem filter_candidates_sound_witness :
    ∃ l, filter_candidates ["stare", "crane"] [("raise", "YY--G")] 5 = some l ∧
      "crane" ∈ l :=
  filter_candidates_sound ["stare", "crane"] "crane" [("raise", "YY--G")] 5
    (by decide) (by decide) (by decide) (by decide)

/-! ### The Episode Harness (`packages/harness/core.py`) -/

/-- The state dictionary passed to a solver each turn (the seeded RNG of the
Python dict lives inside the abstract solver function). -/
structure GameView where
  turn : Nat
  history : List (String × String)
  candidates : List String
  allowed : List String
  N : Nat

/-- The result dictionary of `run_case` (`time_ms` is wall-clock time, outside
the model). -/
structure CaseResult where
  success : Bool
  guesses : Nat
  history : List (String × String)
  answer : String

/-- Single source of truth for the Wordle turn budget. -/
def WORDLE_MAX_TURNS : Nat := 6

/-- The turn loop of `run_case` (`for turn in range(1, WORDLE_MAX_TURNS + 1)`),
with `fuel` the number of turns left; the per-turn state dict is rebuilt with
the length-filtered allowed list, mirroring the source. -/
def runTurns (solver : GameView → String) (answer : String) (allowedN : List String)
    (N : Nat) : Nat → Nat → List (String × String) → List String → Option CaseResult
  | 0, _, history, _ => some ⟨false, WORDLE_MAX_TURNS, history, answer⟩
  | fuel + 1, turn, history, candidates =>
    let guess := solver ⟨turn, history, candidates, allowedN, N⟩
    match score guess answer with
    | none => none
    | some patt =>
      let history' := history ++ [(guess, patt)]
      if guess = answer then some ⟨true, turn, history', answer⟩
      else
        match filter_candidates candidates [(guess, patt)] N with
        | none => none
        | some candidates' =>
          runTurns solver answer allowedN N fuel (turn + 1) history' candidates'

/-- `run_case` from `packages/harness/core.py`: guard the turn budget, then
play up to six turns starting from the length-filtered answer pool. -/
def run_case (solver : GameView → String) (answer : String) (allowed answers : List String)
    (N : Nat) (maxTurns : Nat) : Option CaseResult :=
  if maxTurns ≠ WORDLE_MAX_TURNS then none
  else
    runTurns solver answer (allowed.filter (fun w => w.length = N)) N
      WORDLE_MAX_TURNS 1 [] (answers.filter (fun w => w.length = N))

/-- The sequential loop of `run_batch` (per-case seeds live inside the solver
function). -/
def runBatchGo (solver : GameView → String) (allowed answers : List String) (N : Nat) :
    List String → Option (List CaseResult)
  | [] => some []
  | ans :: rest =>
    match run_case solver ans allowed answers N WORDLE_MAX_TURNS with
    | none => none
    | some r => (runBatchGo solver allowed answers N rest).map (fun l => r :: l)

/-- `run_batch` from `packages/harness/core.py`. -/
def run_batch (solver : GameView → String) (answers allowed : List String) (N : Nat)
    (maxTurns : Nat) (sample : Option Nat) : Option (List CaseResult) :=
  if maxTurns ≠ WORDLE_MAX_TURNS then none
  else
    let pool := answers.filter (fun w => w.length = N)
    let pool := match sample with
      | some k => pool.take k
      | none => pool
    runBatchGo solver allowed answers N pool

lemma runTurns_spec (solver : GameView → String) (answer : String) (allowedN : List String)
    (N : Nat) (hN : (normWord answer).length = N)
    (hS : ∀ st : GameView, (normWord (solver st)).length = N) :
    ∀ fuel turn history candidates,
      ∃ r, runTurns solver answer allowedN N fuel turn history candidates = some r ∧
        r.answer = answer ∧
        ∃ ext, r.history = history ++ ext ∧ ext.length ≤ fuel ∧
          ((r.success = true ∧
              (∃ pre g p, ext = pre ++ [(g, p)] ∧ g = answer ∧ (∀ e ∈ pre, e.1 ≠ answer)) ∧
              r.guesses = turn + ext.length - 1)
           ∨ (r.success = false ∧ ext.length = fuel ∧ (∀ e ∈ ext, e.1 ≠ answer) ∧
              r.guesses = WORDLE_MAX_TURNS)) := by
  intro fuel
  induction fuel with
  | zero =>
    intro turn history candidates
    refine ⟨⟨false, WORDLE_MAX_TURNS, history, answer⟩, rfl, rfl, [], by simp, by simp, ?_⟩
    right
    exact ⟨rfl, rfl, by simp, rfl⟩
  | succ fuel ih =>
    intro turn history candidates
    set st : GameView := ⟨turn, history, candidates, allowedN, N⟩ with hst
    have hsome : (score (solver st) answer).isSome = true := by
      rw [score_isSome_iff, hS st, hN]
    obtain ⟨patt, hpatt⟩ := Option.isSome_iff_exists.mp hsome
    by_cases hwin : solver st = answer
    · refine ⟨⟨true, turn, history ++ [(solver st, patt)], answer⟩, ?_, rfl,
        [(solver st, patt)], rfl, by simp, ?_⟩
      · simp only [runTurns, hpatt, if_pos hwin]
      · left
        refine ⟨rfl, ⟨[], solver st, patt, by simp, hwin, by simp⟩, ?_⟩
        simp
    · have hgN : ∀ gp ∈ [(solver st, patt)], (normWord gp.1).length = N := by
        intro gp hgp
        simp only [List.mem_singleton] at hgp
        rw [hgp, hS st]
      obtain ⟨r, hr, hans, ext', hhist', hlen', hcase'⟩ :=
        ih (turn + 1) (history ++ [(solver st, patt)])
          ((candidates.map normWord).filter (keepWord [(solver st, patt)] N))
      refine ⟨r, ?_, hans, (solver st, patt) :: ext', ?_, by simpa using hlen', ?_⟩
      · simp only [runTurns, hpatt, if_neg hwin,
          filter_candidates_eq candidates [(solver st, patt)] N hgN]
        exact hr
      · rw [hhist']
        simp
      · rcases hcase' with ⟨hsucc, ⟨pre, g, p, hext, hg, hpre⟩, hguesses⟩ | ⟨hsucc, hlen, hall, hguesses⟩
        · left
          refine ⟨hsucc, ⟨(solver st, patt) :: pre, g, p, by rw [hext]; rfl, hg, ?_⟩, ?_⟩
          · intro e he
            rcases List.mem_cons.mp he with rfl | hmem
            · exact hwin
            · exact hpre e hmem
          · rw [hguesses]
            simp only [List.length_cons]
            omega
        · right
          refine ⟨hsucc, by simp [hlen], ?_, hguesses⟩
          intro e he
          rcases List.mem_cons.mp he with rfl | hmem
          · exact hwin
          · exact hall e hmem

/-- C4: `run_case` plays at most six turns.  With `max_turns = 6` it returns a
result whose `history` has one entry per turn played: on success the last
recorded guess is the answer, no earlier one is, and `guesses` is the number
of turns played (at most 6); otherwise `success = false`, `guesses = 6`, six
turns are recorded and none guessed the answer.  Any `max_turns` other than 6
makes `run_case` (and `run_batch`) raise. -/
theorem run_case_spec (solver : GameView → String) (answer : String)
    (allowed answers : List String) (N : Nat)
    (hN : (normWord answer).length = N)
    (hS : ∀ st : GameView, (normWord (solver st)).length = N) :
    (∃ r, run_case solver answer allowed answers N 6 = some r ∧
      r.answer = answer ∧ r.guesses ≤ 6 ∧
      r.history.length = (if r.success then r.guesses else 6) ∧
      (r.success = true →
        (∃ pre g p, r.history = pre ++ [(g, p)] ∧ g = answer ∧ (∀ e ∈ pre, e.1 ≠ answer)) ∧
        r.guesses = r.history.length) ∧
      (r.success = false → r.guesses = 6 ∧ ∀ e ∈ r.history, e.1 ≠ answer)) ∧
    (∀ m, m ≠ 6 → run_case solver answer allowed answers N m = none) ∧
    (∀ m, m ≠ 6 → ∀ sample, run_batch solver answers allowed N m sample = none) := by
  refine ⟨?_, fun m hm => by simp [run_case, WORDLE_MAX_TURNS, hm],
    fun m hm sample => by simp [run_batch, WORDLE_MAX_TURNS, hm]⟩
  obtain ⟨r, hr, hans, ext, hhist, hlen, hcase⟩ :=
    runTurns_spec solver answer (allowed.filter (fun w => w.length = N)) N hN hS
      WORDLE_MAX_TURNS 1 [] (answers.filter (fun w => w.length = N))
  have hrc : run_case solver answer allowed answers N 6 = some r := by
    rw [run_case, if_neg (by simp [WORDLE_MAX_TURNS])]
    exact hr
  rw [List.nil_append] at hhist
  have h6 : WORDLE_MAX_TURNS = 6 := rfl
  rw [h6] at hlen
  rcases hcase with ⟨hsucc, ⟨pre, g, p, hext, hg, hpre⟩, hguesses⟩ | ⟨hsucc, hlenx, hall, hguesses⟩
  · have hlh : r.history.length = r.guesses := by
      rw [hhist, hguesses]
      omega
    refine ⟨r, hrc, hans, ?_, ?_, fun _ => ⟨⟨pre, g, p, by rw [hhist, hext], hg, hpre⟩, hlh.symm⟩,
      fun hcon => by rw [hsucc] at hcon; cases hcon⟩
    · rw [hguesses]
      omega
    · rw [hsucc, if_pos rfl, hlh]
  · have hg6 : r.guesses = 6 := by rw [hguesses, h6]
    refine ⟨r, hrc, hans, by omega, ?_,
      fun (hcon : r.success = true) => absurd hcon (by simp [hsucc]),
      fun _ => ⟨hg6, fun e he => hall e (by rw [hhist] at he; exact he)⟩⟩
    rw [hsucc, if_neg (by simp), hhist, hlenx, h6]

/-- Witness for `run_case_spec`: a constant solver that guesses the answer. -/
theorem run_case_spec_witness :
    ∃ r, run_case (fun _ => "crane") "crane" ["crane"] ["crane"] 5 6 = some r ∧
      r.answer = "crane" ∧ r.guesses ≤ 6 := by
  obtain ⟨⟨r, h1, h2, h3, -⟩, -⟩ :=
    run_case_spec (fun _ => "crane") "crane" ["crane"] ["crane"] 5 rfl (fun _ => rfl)
  exact ⟨r, h1, h2, h3⟩

/-! ### All-gray patterns and shared letters (towards claims C6, C7) -/

/-- Does the word share at least one letter with the guess? -/
def sharesLetter (w g : String) : Bool :=
  w.data.any (fun c => g.data.contains c)

lemma scorePass1_count (g a : List Char) (c : Char) :
    (scorePass1 g a).2.count c = yellowAvail g a c := by
  rw [scorePass1_eq]
  simp only [List.count_eq_countP, List.countP_map, List.countP_filter]
  unfold yellowAvail
  apply List.countP_congr
  intro x _
  by_cases hx : x.1 = x.2
  · simp [hx]
  · by_cases hxg : x.2 = c
    · simp [hx, hxg]
    · simp [hx, hxg]

lemma scorePass2_eq_replicate (pairs : List (Char × Char)) (rem : List Char) :
    scorePass2 pairs rem = List.replicate pairs.length '-' ↔
      ∀ x ∈ pairs, x.1 ≠ 'G' ∧ rem.count x.2 = 0 := by
  induction pairs generalizing rem with
  | nil => simp [scorePass2]
  | cons x rest ih =>
    obtain ⟨q, h⟩ := x
    simp only [scorePass2, List.length_cons, List.replicate_succ]
    by_cases hq : q = 'G'
    · rw [if_pos hq]
      constructor
      · intro hcon
        cases hcon
      · intro hcon
        exact absurd hq (hcon (q, h) (List.mem_cons_self _ _)).1
    · rw [if_neg hq]
      by_cases hc : 0 < List.count h rem
      · rw [if_pos hc]
        constructor
        · intro hcon
          cases hcon
        · intro hcon
          have h2 : List.count h rem = 0 := (hcon (q, h) (List.mem_cons_self _ _)).2
          omega
      · rw [if_neg hc]
        rw [List.cons_eq_cons]
        constructor
        · rintro ⟨-, hrec⟩
          intro x hx
          rcases List.mem_cons.mp hx with rfl | hmem
          · exact ⟨hq, by show List.count h rem = 0; omega⟩
          · exact (ih rem).mp hrec x hmem
        · intro hcon
          exact ⟨rfl, (ih rem).mpr (fun x hx => hcon x (List.mem_cons_of_mem _ hx))⟩

lemma scoreChars_all_gray (g w : List Char) (h : g.length = w.length) :
    scoreChars g w = List.replicate g.length '-' ↔ ∀ c ∈ g, c ∉ w := by
  have hchars : scoreChars g w = scorePass2 ((scorePass1 g w).1.zip g) (scorePass1 g w).2 := rfl
  have hplen : ((scorePass1 g w).1.zip g).length = g.length := by
    rw [scorePass1_eq]
    simp [h]
  rw [hchars, ← hplen, scorePass2_eq_replicate, scorePass1_fst_zip g w h]
  constructor
  · intro hall c hcg hcw
    obtain ⟨i, hi, hgi⟩ := List.mem_iff_getElem.mp hcg
    obtain ⟨k, hk, hwk⟩ := List.mem_iff_getElem.mp hcw
    have hzi : (g.zip w)[i]? = some (g[i], w[i]) := by
      rw [List.getElem?_zip_eq_some]
      exact ⟨List.getElem?_eq_getElem hi, List.getElem?_eq_getElem (h ▸ hi)⟩
    have hzk : (g.zip w)[k]? = some (g[k], w[k]) := by
      rw [List.getElem?_zip_eq_some]
      exact ⟨List.getElem?_eq_getElem (h.symm ▸ hk), List.getElem?_eq_getElem hk⟩
    have hmapi : (List.map (fun x => ((if x.1 = x.2 then 'G' else '-'), x.1)) (g.zip w))[i]?
        = some ((if g[i] = w[i] then 'G' else '-'), g[i]) := by
      rw [List.getElem?_map, hzi]
      rfl
    have hmapk : (List.map (fun x => ((if x.1 = x.2 then 'G' else '-'), x.1)) (g.zip w))[k]?
        = some ((if g[k] = w[k] then 'G' else '-'), g[k]) := by
      rw [List.getElem?_map, hzk]
      rfl
    have hmi := hall _ (List.getElem?_mem hmapi)
    have hmk := hall _ (List.getElem?_mem hmapk)
    have hik : g[i] ≠ w[i] := by
      intro hcon
      exact hmi.1 (by rw [if_pos hcon])
    have hcnt := hmi.2
    rw [scorePass1_count] at hcnt
    unfold yellowAvail at hcnt
    rw [List.countP_eq_zero] at hcnt
    have hkk : g[k] = w[k] := by
      by_contra hcon
      have hzmem : (g[k], w[k]) ∈ g.zip w := List.getElem?_mem hzk
      have hpred : (!((g[k], w[k]).1 == (g[k], w[k]).2)
          && ((g[k], w[k]).2 == (if g[i] = w[i] then 'G' else '-', g[i]).2)) = true := by
        simp only [Bool.and_eq_true, Bool.not_eq_true', beq_eq_false_iff_ne, beq_iff_eq]
        exact ⟨hcon, show w[k] = g[i] from by rw [hwk, hgi]⟩
      exact hcnt (g[k], w[k]) hzmem hpred
    have hkne : g[k] ≠ w[k] := by
      intro hcon
      exact hmk.1 (by rw [if_pos hcon])
    exact hkne hkk
  · intro hdisj x hx
    obtain ⟨y, hy, rfl⟩ := List.mem_map.mp hx
    obtain ⟨hy1, hy2⟩ := List.of_mem_zip hy
    constructor
    · intro hcon
      have hyeq : y.1 = y.2 := by
        by_contra hne
        rw [if_neg hne] at hcon
        cases hcon
      exact hdisj y.1 hy1 (hyeq ▸ hy2)
    · rw [scorePass1_count]
      unfold yellowAvail
      rw [List.countP_eq_zero]
      intro z hz
      obtain ⟨hz1, hz2⟩ := List.of_mem_zip hz
      simp only [Bool.and_eq_true, Bool.not_eq_true', beq_eq_false_iff_ne, beq_iff_eq,
        not_and]
      intro _hne hcon
      exact hdisj y.1 hy1 (hcon ▸ hz2)

lemma not_sharesLetter_iff (w g : String) :
    sharesLetter w g = false ↔ ∀ c ∈ g.data, c ∉ w.data := by
  simp only [sharesLetter, List.any_eq_false, Bool.not_eq_true]
  constructor
  · intro h c hcg hcw
    have h2 := h c hcw
    have h3 : g.data.contains c = true := List.elem_iff.mpr hcg
    rw [h3] at h2
    cases h2
  · intro h c hcw
    by_contra hcon
    rw [Bool.not_eq_false] at hcon
    exact h c (List.elem_iff.mp hcon) hcw

lemma keepWord_all_gray (g w : String) (N : Nat)
    (hgc : isCleanWord g = true) (hgN : g.length = N)
    (hwc : isCleanWord w = true) (hwN : w.length = N) :
    keepWord [(g, String.mk (List.replicate N '-'))] N w = !(sharesLetter w g) := by
  have hwa : pyIsAlpha w = true := clean_length_alpha hwc
  have hng : normWord g = g := normWord_of_clean hgc
  have hnw : normWord w = w := normWord_of_clean hwc
  have hlen : (normWord g).length = (normWord w).length := by
    rw [hng, hnw, hgN, hwN]
  have hscore : score g w = some (String.mk (scoreChars g.data w.data)) := by
    unfold score
    rw [if_pos hlen, hng, hnw]
  have hdlen : g.data.length = w.data.length := by
    have h1 : g.length = w.length := by rw [hgN, hwN]
    exact h1
  have hrepl : List.replicate N '-' = List.replicate g.data.length '-' := by
    have h1 : g.data.length = N := hgN
    rw [h1]
  have hiff := scoreChars_all_gray g.data w.data hdlen
  have hbeq : (score g w == some (String.mk (List.replicate N '-')))
      = !(sharesLetter w g) := by
    rw [hscore]
    cases hsh : sharesLetter w g
    · have hgray := hiff.mpr ((not_sharesLetter_iff w g).mp hsh)
      have heq : String.mk (scoreChars g.data w.data) = String.mk (List.replicate N '-') := by
        rw [hgray, hrepl]
      rw [heq]
      simp
    · have hne : String.mk (scoreChars g.data w.data) ≠ String.mk (List.replicate N '-') := by
        intro hcon
        have hd := congrArg String.data hcon
        simp only at hd
        rw [hrepl] at hd
        have hdisj := hiff.mp hd
        rw [(not_sharesLetter_iff w g).mpr hdisj] at hsh
        cases hsh
      simp [hne]
  show keepWord [(g, String.mk (List.replicate N '-'))] N w = !(sharesLetter w g)
  unfold keepWord
  simp only [List.all_cons, List.all_nil]
  have h1 : decide (w.length = N) = true := by simp [hwN]
  rw [h1, hwa, hbeq]
  cases sharesLetter w g <;> rfl

/-! ### The Bandit Environment (`packages/agent/env.py`, `WordleBanditEnv.step`) -/

/-- The mutable episode state of `WordleBanditEnv` (word lists included). -/
structure EnvState where
  N : Nat
  alphaTime : Rat
  allowed : List String
  answer : String
  turn : Nat
  history : List (String × String)
  candidates : List String
  prevCLen : Option Nat

/-- One `WordleBanditEnv.step`, with the chosen solver's returned guess and its
measured compute time supplied as inputs; the returned tuple carries the new
state, the reward, the `done` flag and the pattern (the observation/info
dictionaries are derived views of the state).  `none` models an exception
escaping `step`. -/
def envStep (e : EnvState) (rawGuess : String) (stepTimeMs : Rat) :
    Option (EnvState × Rat × Bool × String) :=
  let guess := pyLower rawGuess
  let pr : Option (String × Rat) :=
    if guess.length ≠ e.N ∨ guess ∉ e.allowed then
      some (String.mk (List.replicate e.N '-'), -2 - e.alphaTime * (stepTimeMs / 100))
    else
      (score guess e.answer).map (fun p => (p, -1 - e.alphaTime * (stepTimeMs / 100)))
  pr.bind (fun pa =>
    (filter_candidates e.candidates [(guess, pa.1)] e.N).map (fun cands2 =>
      ({ e with
          history := e.history ++ [(guess, pa.1)],
          prevCLen := some e.candidates.length,
          candidates := cands2,
          turn := e.turn + 1 },
        pa.2, decide (pa.1 = String.mk (List.replicate e.N 'G') ∨ e.turn + 1 ≥ 6), pa.1)))

/-- C6 (failing input): a wrong-length guess takes the invalid branch, which
assigns the neutral pattern, but the subsequent re-filtering scores the
length-3 guess against the length-5 candidate and the scorer's assertion
raises, so `step` does not complete. -/
theorem envStep_wrong_length_raises :
    envStep ⟨5, 1/5, ["crane"], "crane", 0, [], ["crane"], none⟩ "abc" 0 = none := rfl

/-- C7 (counterexample): with candidate pool `["house"]` and the invalid
length-3 guess `"abc"` — which shares no letter with `"house"` — the claim
would keep `"house"` in the re-filtered pool, but `step` raises instead and no
filtered pool exists. -/
theorem envStep_no_refilter_cex :
    envStep ⟨5, 1/5, ["house"], "house", 0, [], ["house"], none⟩ "abc" 0 = none ∧
      sharesLetter "house" "abc" = false :=
  ⟨rfl, rfl⟩

/-- C7 (amended to guesses of length `N`): every branch of `step` — valid or
invalid — appends the (guess, pattern) pair to the history and replaces the
candidate pool by `filter_candidates` of that single pair; for an invalid
guess (not in the allowed pool) the pattern is the all-Gray placeholder, the
reward is the heavier `-2` penalty, and exactly the candidates sharing no
letter with the guess survive — so the penalty pattern does reshape the pool,
possibly removing the hidden answer. -/
theorem envStep_spec (e : EnvState) (rawGuess : String) (t : Rat)
    (hg : isCleanWord (pyLower rawGuess) = true)
    (hgN : (pyLower rawGuess).length = e.N)
    (ha : isCleanWord e.answer = true) (haN : e.answer.length = e.N)
    (hc : ∀ w ∈ e.candidates, isCleanWord w = true ∧ w.length = e.N) :
    ∃ e2 reward done patt, envStep e rawGuess t = some (e2, reward, done, patt) ∧
      e2.history = e.history ++ [(pyLower rawGuess, patt)] ∧
      e2.turn = e.turn + 1 ∧
      e2.prevCLen = some e.candidates.length ∧
      filter_candidates e.candidates [(pyLower rawGuess, patt)] e.N = some e2.candidates ∧
      (pyLower rawGuess ∉ e.allowed →
        patt = String.mk (List.replicate e.N '-') ∧
        reward = -2 - e.alphaTime * (t / 100) ∧
        e2.candidates = e.candidates.filter (fun w => !(sharesLetter w (pyLower rawGuess)))) := by
  have hmap : e.candidates.map normWord = e.candidates :=
    (List.map_congr_left (fun w hw => normWord_of_clean (hc w hw).1)).trans
      (List.map_id' e.candidates)
  have hsingle : ∀ (patt : String),
      ∀ gp ∈ [(pyLower rawGuess, patt)], (normWord gp.1).length = e.N := by
    intro patt gp hgp
    simp only [List.mem_singleton] at hgp
    rw [hgp, normWord_of_clean hg, hgN]
  by_cases hmem : pyLower rawGuess ∈ e.allowed
  · have hscore : (score (pyLower rawGuess) e.answer).isSome = true := by
      rw [score_isSome_iff, normWord_of_clean hg, normWord_of_clean ha, hgN, haN]
    obtain ⟨patt, hpatt⟩ := Option.isSome_iff_exists.mp hscore
    have hfilt := filter_candidates_eq e.candidates [(pyLower rawGuess, patt)] e.N
      (hsingle patt)
    have hstep : envStep e rawGuess t = some
        (({ e with
            history := e.history ++ [(pyLower rawGuess, patt)],
            prevCLen := some e.candidates.length,
            candidates := (e.candidates.map normWord).filter
              (keepWord [(pyLower rawGuess, patt)] e.N),
            turn := e.turn + 1 } : EnvState),
          -1 - e.alphaTime * (t / 100),
          decide (patt = String.mk (List.replicate e.N 'G') ∨ e.turn + 1 ≥ 6), patt) := by
      simp only [envStep]
      rw [if_neg (by push_neg; exact ⟨hgN, hmem⟩), hpatt]
      simp only [Option.map_some', Option.some_bind]
      rw [hfilt]
      simp only [Option.map_some']
    exact ⟨_, _, _, patt, hstep, rfl, rfl, rfl, hfilt, fun hcon => absurd hmem hcon⟩
  · have hinv : (pyLower rawGuess).length ≠ e.N ∨ pyLower rawGuess ∉ e.allowed :=
      Or.inr hmem
    have hfilt := filter_candidates_eq e.candidates
      [(pyLower rawGuess, String.mk (List.replicate e.N '-'))] e.N
      (hsingle (String.mk (List.replicate e.N '-')))
    have hkeep : e.candidates.filter
          (keepWord [(pyLower rawGuess, String.mk (List.replicate e.N '-'))] e.N)
        = e.candidates.filter (fun w => !(sharesLetter w (pyLower rawGuess))) := by
      apply List.filter_congr
      intro w hw
      exact keepWord_all_gray (pyLower rawGuess) w e.N hg hgN (hc w hw).1 (hc w hw).2
    have hstep : envStep e rawGuess t = some
        (({ e with
            history := e.history ++
              [(pyLower rawGuess, String.mk (List.replicate e.N '-'))],
            prevCLen := some e.candidates.length,
            candidates := (e.candidates.map normWord).filter
              (keepWord [(pyLower rawGuess, String.mk (List.replicate e.N '-'))] e.N),
            turn := e.turn + 1 } : EnvState),
          -2 - e.alphaTime * (t / 100),
          decide (String.mk (List.replicate e.N '-') = String.mk (List.replicate e.N 'G')
            ∨ e.turn + 1 ≥ 6),
          String.mk (List.replicate e.N '-')) := by
      simp only [envStep]
      rw [if_pos hinv]
      simp only [Option.some_bind]
      rw [hfilt]
      simp only [Option.map_some']
    refine ⟨_, _, _, String.mk (List.replicate e.N '-'), hstep, rfl, rfl, rfl, hfilt,
      fun _ => ⟨rfl, rfl, ?_⟩⟩
    show (e.candidates.map normWord).filter
        (keepWord [(pyLower rawGuess, String.mk (List.replicate e.N '-'))] e.N)
      = e.candidates.filter (fun w => !(sharesLetter w (pyLower rawGuess)))
    rw [hmap, hkeep]

/-- Witness for `envStep_spec`: an invalid length-5 guess sharing no letter
with the only candidate leaves that candidate in the pool. -/
theorem envStep_spec_witness :
    ∃ e' reward done patt,
      envStep ⟨5, 1/5, ["house"], "house", 0, [], ["house"], none⟩ "pqxyz" 0
        = some (e', reward, done, patt) ∧
      e'.turn = 1 ∧ e'.candidates = ["house"] := by
  obtain ⟨e', reward, done, patt, h1, -, h3, -, -, h6⟩ :=
    envStep_spec ⟨5, 1/5, ["house"], "house", 0, [], ["house"], none⟩ "pqxyz" 0
      (by decide) (by decide) (by decide) (by decide) (by decide)
  obtain ⟨-, -, hcand⟩ := h6 (by decide)
  refine ⟨e', reward, done, patt, h1, h3, ?_⟩
  rw [hcand]
  rfl

/-! ### The Bandit Meta-Controller (`packages/agent/bandit_linucb.py`)

Matrices and vectors are nested lists of `Rat`; `np.linalg.inv` and `np.sqrt`
are uninterpreted function parameters (`inv`, `sqrtF`); the per-action dicts
`self.A`, `self.b` are association lists with Python-dict overwrite
semantics. -/

/-- Python dict assignment `m[k] = v`: overwrite the existing binding or
append a new one. -/
def dictInsert {β : Type} (k : String) (v : β) : List (String × β) → List (String × β)
  | [] => [(k, v)]
  | (k2, v2) :: rest => if k2 = k then (k, v) :: rest else (k2, v2) :: dictInsert k v rest

def dotL (u v : List Rat) : Rat := (List.zipWith (fun a b => a * b) u v).sum

def matVecMul (A : List (List Rat)) (v : List Rat) : List Rat :=
  A.map (fun row => dotL row v)

def vecMatMul (x : List Rat) (A : List (List Rat)) : List Rat :=
  A.transpose.map (fun col => dotL x col)

def negVec (x : List Rat) : List Rat := x.map (fun a => -a)

def outerMat (x y : List Rat) : List (List Rat) :=
  x.map (fun xi => y.map (fun yj => xi * yj))

def matAdd (A B : List (List Rat)) : List (List Rat) :=
  List.zipWith (fun r s => List.zipWith (fun a b => a + b) r s) A B

def vecAdd (u v : List Rat) : List Rat := List.zipWith (fun a b => a + b) u v

def smulVec (r : Rat) (x : List Rat) : List Rat := x.map (fun a => r * a)

/-- `l2 * np.eye(d)`. -/
def eyeMat (d : Nat) (l2 : Rat) : List (List Rat) :=
  (List.range d).map (fun i => (List.range d).map (fun j => if i = j then l2 else 0))

/-- `np.zeros((d, 1))`, flattened. -/
def zerosVec (d : Nat) : List Rat := List.replicate d 0

/-- The per-action linear-UCB model (the unused `rng` of the Python class is
omitted: selection, update and persistence never draw from it). -/
structure LinUCB where
  actions : List String
  d : Nat
  alpha : Rat
  A : List (String × List (List Rat))
  b : List (String × List Rat)

/-- `LinUCB.__init__`: every action's `A` starts as the ridge-scaled identity
and every `b` as the zero vector. -/
def LinUCB.init (actions : List String) (d : Nat) (alpha l2 : Rat) : LinUCB :=
  { actions := actions, d := d, alpha := alpha,
    A := actions.foldl (fun m a => dictInsert a (eyeMat d l2) m) [],
    b := actions.foldl (fun m a => dictInsert a (zerosVec d) m) [] }

/-- `LinUCB.update`: rank-1 update of the chosen action (`none` is the
`KeyError` on an unknown action). -/
def LinUCB.update (m : LinUCB) (a : String) (x : List Rat) (r : Rat) : Option LinUCB :=
  match m.A.lookup a, m.b.lookup a with
  | some Aa, some ba =>
    some { m with A := dictInsert a (matAdd Aa (outerMat x x)) m.A,
                  b := dictInsert a (vecAdd ba (smulVec r x)) m.b }
  | _, _ => none

/-- One action's UCB score inside `LinUCB.select`:
`x^T theta_a + alpha * sqrt(max(x^T A_a^{-1} x, 0))` with
`theta_a = A_a^{-1} b_a`. -/
def ucbScore (inv : List (List Rat) → List (List Rat)) (sqrtF : Rat → Rat)
    (m : LinUCB) (x : List Rat) (a : String) : Option Rat :=
  match m.A.lookup a, m.b.lookup a with
  | some Aa, some ba =>
    let Ainv := inv Aa
    let theta := matVecMul Ainv ba
    let mean := dotL x theta
    let quad := dotL (vecMatMul x Ainv) x
    some (mean + m.alpha * sqrtF (max quad 0))
  | _, _ => none

/-- The selection loop of `LinUCB.select`: iterate the actions in order,
keeping the first maximiser (`best is None or ucb > best_score`). -/
def selectGo (f : String → Option Rat) : List String → Option (String × Rat) → Option String
  | [], acc => acc.map (fun p => p.1)
  | a :: rest, acc =>
    match f a with
    | none => none
    | some u =>
      match acc with
      | none => selectGo f rest (some (a, u))
      | some (b2, bs) =>
        if u > bs then selectGo f rest (some (a, u)) else selectGo f rest (some (b2, bs))

/-- `LinUCB.select`, parameterised by the two numeric primitives. -/
def LinUCB.select (inv : List (List Rat) → List (List Rat)) (sqrtF : Rat → Rat)
    (m : LinUCB) (x : List Rat) : Option String :=
  selectGo (ucbScore inv sqrtF m x) m.actions none

/-- The payload of `LinUCB.to_json` / `LinUCB.from_json`.  The JSON text
encoding itself is lossless on this payload (strings, an integer, and exact
numeric arrays), so serialisation is modelled as producing the payload. -/
structure LinUCBPack where
  actions : List String
  d : Nat
  alpha : Rat
  A : List (String × List (List Rat))
  b : List (String × List Rat)

/-- The dict comprehension of `to_json`: one entry per action, read from the
model's per-action dict (`none` is a `KeyError`). -/
def packEntries {β : Type} (src : List (String × β)) : List String → Option (List (String × β))
  | [] => some []
  | a :: rest =>
    match src.lookup a with
    | none => none
    | some v => (packEntries src rest).map (fun l => (a, v) :: l)

/-- `LinUCB.to_json`. -/
def LinUCB.to_json (m : LinUCB) : Option LinUCBPack :=
  match packEntries m.A m.actions, packEntries m.b m.actions with
  | some As, some bs => some ⟨m.actions, m.d, m.alpha, As, bs⟩
  | _, _ => none

/-- The restore loop of `from_json`: overwrite each action's `A` and `b` with
the deserialised arrays. -/
def restoreEntries (p : LinUCBPack) : LinUCB → List String → Option LinUCB
  | m, [] => some m
  | m, a :: rest =>
    match p.A.lookup a, p.b.lookup a with
    | some Av, some bv =>
      restoreEntries p { m with A := dictInsert a Av m.A, b := dictInsert a bv m.b } rest
    | _, _ => none

/-- `LinUCB.from_json`: build a fresh model (default ridge constant 1) and
overwrite its per-action state from the payload. -/
def LinUCB.from_json (p : LinUCBPack) : Option LinUCB :=
  restoreEntries p (LinUCB.init p.actions p.d p.alpha 1) p.actions

lemma lookup_dictInsert_self {β : Type} (k : String) (v : β) (l : List (String × β)) :
    (dictInsert k v l).lookup k = some v := by
  induction l with
  | nil => simp [dictInsert, List.lookup]
  | cons kv rest ih =>
    obtain ⟨k2, v2⟩ := kv
    simp only [dictInsert]
    by_cases h : k2 = k
    · rw [if_pos h]
      simp [List.lookup]
    · rw [if_neg h]
      simp only [List.lookup]
      rw [show (k == k2) = false by simp [Ne.symm h]]
      exact ih

lemma lookup_dictInsert_ne {β : Type} (k k2 : String) (v : β) (l : List (String × β))
    (h : k2 ≠ k) : (dictInsert k v l).lookup k2 = l.lookup k2 := by
  induction l with
  | nil =>
    simp only [dictInsert, List.lookup]
    rw [show (k2 == k) = false by simp [h]]
  | cons kv rest ih =>
    obtain ⟨k3, v3⟩ := kv
    simp only [dictInsert]
    by_cases h3 : k3 = k
    · rw [if_pos h3]
      simp only [List.lookup]
      rw [show (k2 == k) = false by simp [h], show (k2 == k3) = false by simp [h3 ▸ h]]
    · rw [if_neg h3]
      simp only [List.lookup]
      by_cases h23 : k2 = k3
      · rw [show (k2 == k3) = true by simp [h23]]
      · rw [show (k2 == k3) = false by simp [h23]]
        exact ih

lemma lookup_foldl_dictInsert {β : Type} (g : String → β) (acts : List String)
    (init : List (String × β)) (k : String) :
    (acts.foldl (fun m a => dictInsert a (g a) m) init).lookup k
      = if k ∈ acts then some (g k) else init.lookup k := by
  induction acts generalizing init with
  | nil => simp
  | cons a rest ih =>
    simp only [List.foldl_cons]
    rw [ih]
    by_cases hk : k ∈ rest
    · rw [if_pos hk, if_pos (List.mem_cons_of_mem a hk)]
    · rw [if_neg hk]
      by_cases hka : k = a
      · rw [if_pos (hka ▸ List.mem_cons_self a rest), hka, lookup_dictInsert_self]
      · rw [if_neg (by simp [hka, hk]), lookup_dictInsert_ne a k (g a) init hka]

lemma lookup_map_pair (f : String → β) (acts : List String) (k : String) :
    (acts.map (fun a => (a, f a))).lookup k = if k ∈ acts then some (f k) else none := by
  induction acts with
  | nil => simp
  | cons a rest ih =>
    simp only [List.map_cons, List.lookup]
    by_cases hka : k = a
    · rw [show (k == a) = true by simp [hka]]
      rw [if_pos (hka ▸ List.mem_cons_self a rest), hka]
    · rw [show (k == a) = false by simp [hka], ih]
      by_cases hk : k ∈ rest
      · rw [if_pos hk, if_pos (List.mem_cons_of_mem a hk)]
      · rw [if_neg hk, if_neg (by simp [hka, hk])]

lemma packEntries_eq {β : Type} (src : List (String × β)) (f : String → β)
    (acts : List String) (h : ∀ a ∈ acts, src.lookup a = some (f a)) :
    packEntries src acts = some (acts.map (fun a => (a, f a))) := by
  induction acts with
  | nil => rfl
  | cons a rest ih =>
    simp only [packEntries, h a (List.mem_cons_self a rest),
      ih (fun a2 ha2 => h a2 (List.mem_cons_of_mem a ha2)), Option.map_some', List.map_cons]

lemma restoreEntries_eq (p : LinUCBPack) (fA : String → List (List Rat))
    (fb : String → List Rat) (acts : List String) (m : LinUCB)
    (hA : ∀ a ∈ acts, p.A.lookup a = some (fA a))
    (hb : ∀ a ∈ acts, p.b.lookup a = some (fb a)) :
    restoreEntries p m acts = some
      { m with A := acts.foldl (fun mm a => dictInsert a (fA a) mm) m.A,
               b := acts.foldl (fun mm a => dictInsert a (fb a) mm) m.b } := by
  induction acts generalizing m with
  | nil => rfl
  | cons a rest ih =>
    simp only [restoreEntries, hA a (List.mem_cons_self a rest),
      hb a (List.mem_cons_self a rest), List.foldl_cons]
    exact ih _ (fun a2 ha2 => hA a2 (List.mem_cons_of_mem a ha2))
      (fun a2 ha2 => hb a2 (List.mem_cons_of_mem a ha2))

lemma ucbScore_congr (m m2 : LinUCB) (inv : List (List Rat) → List (List Rat))
    (sqrtF : Rat → Rat) (x : List Rat) (a : String)
    (halpha : m2.alpha = m.alpha) (hA : m2.A.lookup a = m.A.lookup a)
    (hb : m2.b.lookup a = m.b.lookup a) :
    ucbScore inv sqrtF m2 x a = ucbScore inv sqrtF m x a := by
  unfold ucbScore
  rw [hA, hb, halpha]

lemma selectGo_congr (f g : String → Option Rat) (acts : List String)
    (acc : Option (String × Rat)) (h : ∀ a ∈ acts, f a = g a) :
    selectGo f acts acc = selectGo g acts acc := by
  induction acts generalizing acc with
  | nil => rfl
  | cons a rest ih =>
    simp only [selectGo, h a (List.mem_cons_self a rest)]
    cases g a with
    | none => rfl
    | some u =>
      cases acc with
      | none => exact ih _ (fun a2 ha2 => h a2 (List.mem_cons_of_mem a ha2))
      | some pr =>
        obtain ⟨b2, bs⟩ := pr
        dsimp only
        by_cases hu : u > bs
        · rw [if_pos hu, if_pos hu]
          exact ih _ (fun a2 ha2 => h a2 (List.mem_cons_of_mem a ha2))
        · rw [if_neg hu, if_neg hu]
          exact ih _ (fun a2 ha2 => h a2 (List.mem_cons_of_mem a ha2))

/-- C8: serialising a LinUCB model whose per-action dicts cover its actions
and deserialising the result reproduces the action list, dimension and
exploration strength, restores every action's `A` matrix and `b` vector, and
therefore yields identical UCB scores and an identical selection for every
feature vector, whatever numeric primitives (`np.linalg.inv`, `np.sqrt`)
compute. -/
theorem linucb_roundtrip (m : LinUCB)
    (hA : ∀ a ∈ m.actions, (m.A.lookup a).isSome = true)
    (hb : ∀ a ∈ m.actions, (m.b.lookup a).isSome = true) :
    ∃ p m2, LinUCB.to_json m = some p ∧ LinUCB.from_json p = some m2 ∧
      m2.actions = m.actions ∧ m2.d = m.d ∧ m2.alpha = m.alpha ∧
      (∀ a ∈ m.actions, m2.A.lookup a = m.A.lookup a ∧ m2.b.lookup a = m.b.lookup a) ∧
      (∀ inv sqrtF x a, a ∈ m.actions →
        ucbScore inv sqrtF m2 x a = ucbScore inv sqrtF m x a) ∧
      (∀ inv sqrtF x, LinUCB.select inv sqrtF m2 x = LinUCB.select inv sqrtF m x) := by
  have hAf : ∀ a ∈ m.actions, m.A.lookup a = some ((m.A.lookup a).getD []) := by
    intro a ha
    obtain ⟨v, hv⟩ := Option.isSome_iff_exists.mp (hA a ha)
    rw [hv]
    rfl
  have hbf : ∀ a ∈ m.actions, m.b.lookup a = some ((m.b.lookup a).getD []) := by
    intro a ha
    obtain ⟨v, hv⟩ := Option.isSome_iff_exists.mp (hb a ha)
    rw [hv]
    rfl
  set p : LinUCBPack :=
    ⟨m.actions, m.d, m.alpha,
      m.actions.map (fun a => (a, (m.A.lookup a).getD [])),
      m.actions.map (fun a => (a, (m.b.lookup a).getD []))⟩ with hp
  have hto : LinUCB.to_json m = some p := by
    unfold LinUCB.to_json
    rw [packEntries_eq m.A (fun a => (m.A.lookup a).getD []) m.actions hAf,
      packEntries_eq m.b (fun a => (m.b.lookup a).getD []) m.actions hbf]
  have hpA : ∀ a ∈ p.actions, p.A.lookup a = some ((m.A.lookup a).getD []) := by
    intro a ha
    show (m.actions.map (fun a => (a, (m.A.lookup a).getD []))).lookup a = _
    rw [lookup_map_pair]
    rw [if_pos (by exact ha)]
  have hpb : ∀ a ∈ p.actions, p.b.lookup a = some ((m.b.lookup a).getD []) := by
    intro a ha
    show (m.actions.map (fun a => (a, (m.b.lookup a).getD []))).lookup a = _
    rw [lookup_map_pair]
    rw [if_pos (by exact ha)]
  have hfrom := restoreEntries_eq p (fun a => (m.A.lookup a).getD [])
    (fun a => (m.b.lookup a).getD []) p.actions (LinUCB.init p.actions p.d p.alpha 1) hpA hpb
  set m2 : LinUCB :=
    { LinUCB.init p.actions p.d p.alpha 1 with
      A := p.actions.foldl (fun mm a => dictInsert a ((m.A.lookup a).getD []) mm)
        (LinUCB.init p.actions p.d p.alpha 1).A,
      b := p.actions.foldl (fun mm a => dictInsert a ((m.b.lookup a).getD []) mm)
        (LinUCB.init p.actions p.d p.alpha 1).b } with hm2
  have hlookups : ∀ a ∈ m.actions, m2.A.lookup a = m.A.lookup a ∧ m2.b.lookup a = m.b.lookup a := by
    intro a ha
    constructor
    · show (p.actions.foldl (fun mm a => dictInsert a ((m.A.lookup a).getD []) mm) _).lookup a = _
      rw [lookup_foldl_dictInsert, if_pos (by exact ha)]
      exact (hAf a ha).symm
    · show (p.actions.foldl (fun mm a => dictInsert a ((m.b.lookup a).getD []) mm) _).lookup a = _
      rw [lookup_foldl_dictInsert, if_pos (by exact ha)]
      exact (hbf a ha).symm
  have hscores : ∀ inv sqrtF x a, a ∈ m.actions →
      ucbScore inv sqrtF m2 x a = ucbScore inv sqrtF m x a := by
    intro inv sqrtF x a ha
    exact ucbScore_congr m m2 inv sqrtF x a rfl (hlookups a ha).1 (hlookups a ha).2
  refine ⟨p, m2, hto, ?_, rfl, rfl, rfl, hlookups, hscores, ?_⟩
  · unfold LinUCB.from_json
    exact hfrom
  · intro inv sqrtF x
    show selectGo (ucbScore inv sqrtF m2 x) m2.actions none
        = selectGo (ucbScore inv sqrtF m x) m.actions none
    exact selectGo_congr _ _ m.actions none (fun a ha => hscores inv sqrtF x a ha)

/-- Witness for `linucb_roundtrip`: a fresh two-action model. -/
theorem linucb_roundtrip_witness :
    ∃ p m2, LinUCB.to_json (LinUCB.init ["p", "q"] 2 (1/2) 1) = some p ∧
      LinUCB.from_json p = some m2 ∧
      m2.actions = (LinUCB.init ["p", "q"] 2 (1/2) 1).actions := by
  obtain ⟨p, m2, h1, h2, h3, -⟩ :=
    linucb_roundtrip (LinUCB.init ["p", "q"] 2 (1/2) 1) (by decide) (by decide)
  exact ⟨p, m2, h1, h2, h3⟩

lemma dotL_right_all_zero (u v : List Rat) (h : ∀ c ∈ v, c = 0) : dotL u v = 0 := by
  induction u generalizing v with
  | nil => rfl
  | cons a u ih =>
    cases v with
    | nil => rfl
    | cons b v2 =>
      simp only [dotL, List.zipWith_cons_cons, List.sum_cons]
      rw [h b (List.mem_cons_self b v2), mul_zero, zero_add]
      exact ih v2 (fun c hc => h c (List.mem_cons_of_mem b hc))

lemma dotL_neg_left (u v : List Rat) : dotL (negVec u) v = -(dotL u v) := by
  induction u generalizing v with
  | nil => simp [dotL, negVec]
  | cons a u ih =>
    cases v with
    | nil => simp [dotL, negVec]
    | cons b v2 =>
      simp only [negVec, List.map_cons, dotL, List.zipWith_cons_cons, List.sum_cons]
      have h2 : ((List.zipWith (fun a b => a * b) (List.map (fun a => -a) u) v2).sum : Rat)
          = -(List.zipWith (fun a b => a * b) u v2).sum := ih v2
      rw [h2]
      ring

lemma dotL_neg_right (u v : List Rat) : dotL u (negVec v) = -(dotL u v) := by
  induction u generalizing v with
  | nil => simp [dotL, negVec]
  | cons a u ih =>
    cases v with
    | nil => simp [dotL, negVec]
    | cons b v2 =>
      simp only [negVec, List.map_cons, dotL, List.zipWith_cons_cons, List.sum_cons]
      have h2 : ((List.zipWith (fun a b => a * b) u (List.map (fun a => -a) v2)).sum : Rat)
          = -(List.zipWith (fun a b => a * b) u v2).sum := ih v2
      rw [h2]
      ring

lemma vecMatMul_neg (x : List Rat) (A : List (List Rat)) :
    vecMatMul (negVec x) A = negVec (vecMatMul x A) := by
  unfold vecMatMul negVec
  rw [List.map_map]
  apply List.map_congr_left
  intro col _
  exact dotL_neg_left x col

lemma quad_form_neg (x : List Rat) (A : List (List Rat)) :
    dotL (vecMatMul (negVec x) A) (negVec x) = dotL (vecMatMul x A) x := by
  rw [vecMatMul_neg, dotL_neg_left, dotL_neg_right, neg_neg]

lemma init_A_lookup (actions : List String) (d : Nat) (alpha l2 : Rat) (a : String) :
    (LinUCB.init actions d alpha l2).A.lookup a
      = if a ∈ actions then some (eyeMat d l2) else none := by
  show (actions.foldl (fun m a => dictInsert a (eyeMat d l2) m) []).lookup a = _
  rw [lookup_foldl_dictInsert (fun _ => eyeMat d l2)]
  split <;> rfl

lemma init_b_lookup (actions : List String) (d : Nat) (alpha l2 : Rat) (a : String) :
    (LinUCB.init actions d alpha l2).b.lookup a
      = if a ∈ actions then some (zerosVec d) else none := by
  show (actions.foldl (fun m a => dictInsert a (zerosVec d) m) []).lookup a = _
  rw [lookup_foldl_dictInsert (fun _ => zerosVec d)]
  split <;> rfl

lemma ucbScore_init (actions : List String) (d : Nat) (alpha l2 : Rat)
    (inv : List (List Rat) → List (List Rat)) (sqrtF : Rat → Rat)
    (x : List Rat) (a : String) (ha : a ∈ actions) :
    ucbScore inv sqrtF (LinUCB.init actions d alpha l2) x a
      = some (alpha * sqrtF (max (dotL (vecMatMul x (inv (eyeMat d l2))) x) 0)) := by
  unfold ucbScore
  rw [init_A_lookup, init_b_lookup, if_pos ha, if_pos ha]
  dsimp only
  have hzero : dotL x (matVecMul (inv (eyeMat d l2)) (zerosVec d)) = 0 := by
    apply dotL_right_all_zero
    intro c hc
    obtain ⟨row, -, rfl⟩ := List.mem_map.mp hc
    exact dotL_right_all_zero row _ (fun c2 hc2 => List.eq_of_mem_replicate hc2)
  rw [hzero, zero_add]
  rfl

/-- C9: in a freshly initialised model (ridge-scaled identity `A`, zero `b`)
every action's UCB score is the pure exploration bonus
`alpha * sqrt(max(x^T A^{-1} x, 0))` — the mean term `x^T A^{-1} b` is zero —
and since that quadratic form is invariant under `x -> -x`, selection is
invariant under a uniform sign flip of the feature vector. -/
theorem linucb_fresh_spec (actions : List String) (d : Nat) (alpha l2 : Rat)
    (inv : List (List Rat) → List (List Rat)) (sqrtF : Rat → Rat)
    (x : List Rat) (a : String) (ha : a ∈ actions) :
    ucbScore inv sqrtF (LinUCB.init actions d alpha l2) x a
      = some (alpha * sqrtF (max (dotL (vecMatMul x (inv (eyeMat d l2))) x) 0)) ∧
    dotL x (matVecMul (inv (eyeMat d l2)) (zerosVec d)) = 0 ∧
    LinUCB.select inv sqrtF (LinUCB.init actions d alpha l2) (negVec x)
      = LinUCB.select inv sqrtF (LinUCB.init actions d alpha l2) x := by
  refine ⟨ucbScore_init actions d alpha l2 inv sqrtF x a ha, ?_, ?_⟩
  · apply dotL_right_all_zero
    intro c hc
    obtain ⟨row, -, rfl⟩ := List.mem_map.mp hc
    exact dotL_right_all_zero row _ (fun c2 hc2 => List.eq_of_mem_replicate hc2)
  · show selectGo _ actions none = selectGo _ actions none
    apply selectGo_congr
    intro a2 ha2
    rw [ucbScore_init actions d alpha l2 inv sqrtF (negVec x) a2 ha2,
      ucbScore_init actions d alpha l2 inv sqrtF x a2 ha2, quad_form_neg]

/-- Witness for `linucb_fresh_spec`: a one-action model probed with `x = [1]`
and identity numeric primitives. -/
theorem linucb_fresh_spec_witness :
    ucbScore (fun A => A) (fun r => r) (LinUCB.init ["p"] 1 1 1) [1] "p"
      = some (1 * max (dotL (vecMatMul [1] (eyeMat 1 1)) [1]) 0) ∧
    LinUCB.select (fun A => A) (fun r => r) (LinUCB.init ["p"] 1 1 1) (negVec [1])
      = LinUCB.select (fun A => A) (fun r => r) (LinUCB.init ["p"] 1 1 1) [1] := by
  obtain ⟨h1, -, h3⟩ :=
    linucb_fresh_spec ["p"] 1 1 1 (fun A => A) (fun r => r) [1] "p" (by decide)
  exact ⟨h1, h3⟩

/-! ### The Solver Registry (`packages/solvers/base.py`, function `register`) -/

/-- A solver class, as the registry sees it: its `id` attribute (the empty
string standing for a missing/falsy id) plus identifying metadata. -/
structure SolverClassInfo where
  id : String
  name : String
deriving DecidableEq

/-- `register` from `packages/solvers/base.py`: reject a falsy `id`, then
assign `_SOLVERS[sid] = cls` — a Python dict assignment, which overwrites any
existing binding. -/
def register (reg : List (String × SolverClassInfo)) (cls : SolverClassInfo) :
    Except String (List (String × SolverClassInfo)) :=
  if cls.id = "" then
    Except.error "Solver class must define a non-empty id attribute."
  else
    Except.ok (dictInsert cls.id cls reg)

/-- C10 (counterexample): registering a second class under the identifier
`"dup"` succeeds — no configuration error — and the registry afterwards maps
`"dup"` to the newer class. -/
theorem register_duplicate_cex :
    ∃ reg1, register [] ⟨"dup", "First"⟩ = Except.ok reg1 ∧
      ∃ reg2, register reg1 ⟨"dup", "Second"⟩ = Except.ok reg2 ∧
        reg2.lookup "dup" = some ⟨"dup", "Second"⟩ ∧
        (⟨"dup", "Second"⟩ : SolverClassInfo) ≠ ⟨"dup", "First"⟩ :=
  ⟨[("dup", ⟨"dup", "First"⟩)], rfl,
    [("dup", ⟨"dup", "Second"⟩)], rfl, rfl, by decide⟩

/-- C10 (amended): registration under an already-present identifier does not
fail — it silently replaces the earlier registration, leaving other ids
untouched; the only registration error is a missing/empty `id` attribute. -/
theorem register_spec (reg : List (String × SolverClassInfo)) (cls : SolverClassInfo)
    (h : cls.id ≠ "") :
    (∃ reg2, register reg cls = Except.ok reg2 ∧
      reg2.lookup cls.id = some cls ∧
      (∀ k, k ≠ cls.id → reg2.lookup k = reg.lookup k)) ∧
    (∀ (c : SolverClassInfo) (r : List (String × SolverClassInfo)), c.id = "" →
      register r c = Except.error "Solver class must define a non-empty id attribute.") := by
  constructor
  · refine ⟨dictInsert cls.id cls reg, ?_, lookup_dictInsert_self cls.id cls reg,
      fun k hk => lookup_dictInsert_ne cls.id k cls reg hk⟩
    unfold register
    rw [if_neg h]
  · intro c r hc
    unfold register
    rw [if_pos hc]

/-- Witness for `register_spec`: replacing the `"dup"` entry. -/
theorem register_spec_witness :
    ∃ reg2, register [("dup", (⟨"dup", "First"⟩ : SolverClassInfo))] ⟨"dup", "Second"⟩
        = Except.ok reg2 ∧ reg2.lookup "dup" = some ⟨"dup", "Second"⟩ := by
  obtain ⟨⟨reg2, h1, h2, -⟩, -⟩ :=
    register_spec [("dup", ⟨"dup", "First"⟩)] ⟨"dup", "Second"⟩ (by decide)
  exact ⟨reg2, h1, h2⟩

/-! ### Solver toolkit (`packages/solvers/`)

Shared modelling pieces: `rng.randrange(len(l))` becomes an oracle draw `r`
reduced mod the list length (`pickIndex`, `none` = the `ValueError` on an
empty list); Python's stable `sorted(key=..., reverse=True)` is a stable
descending insertion sort; `Counter`s are flat character lists queried with
`count`; each solver's best-score loop is `bestLoopM`, parameterised by its
strict-improvement and tie tests. -/

/-- The degenerate fallback guess `"a" * self.N`. -/
def placeholderWord (N : Nat) : String := String.mk (List.replicate N 'a')

/-- `pool[rng.randrange(len(pool))]`. -/
def pickIndex (l : List String) (r : Nat) : Option String := l[r % l.length]?

/-- `Counter("".join(words))`, as the concatenated character list. -/
def joinChars (words : List String) : List Char := (words.map String.data).flatten

/-- The per-word deduplicated alphabet census (`for ch in set(w): alpha[ch] += 1`). -/
def alphaChars (words : List String) : List Char := (words.map (fun w => w.data.dedup)).flatten

/-- Distinct-letter score: each letter of the word counted once. -/
def distinctScoreGo (counts : List Char) (seen : List Char) : List Char → Nat
  | [] => 0
  | c :: cs =>
    if c ∈ seen then distinctScoreGo counts seen cs
    else counts.count c + distinctScoreGo counts (c :: seen) cs

def distinctScore (counts : List Char) (w : String) : Nat := distinctScoreGo counts [] w.data

/-- Stable descending insertion by key (ties keep their input order), the
behaviour of Python's stable `sorted(..., reverse=True)`. -/
def insertDescBy {κ : Type} [LinearOrder κ] (key : String → κ) (x : String) :
    List String → List String
  | [] => [x]
  | y :: ys => if key y < key x then x :: y :: ys else y :: insertDescBy key x ys

def sortDescBy {κ : Type} [LinearOrder κ] (key : String → κ) (l : List String) : List String :=
  l.foldr (insertDescBy key) []

/-- The seen-set union loops (`if w not in seen: seen.add(w); out.append(w)`). -/
def stableDedupGo (seen : List String) : List String → List String
  | [] => []
  | x :: xs => if x ∈ seen then stableDedupGo seen xs else x :: stableDedupGo (x :: seen) xs

def stableDedup (l : List String) : List String := stableDedupGo [] l

/-- The shared best-score loop shape (`if better: reset; elif tie: append`). -/
def bestLoopM {β : Type} (better eqv : β → β → Bool) (scoreOf : String → Option β) :
    List String → Option β → List String → Option (List String)
  | [], _, best => some best
  | w :: ws, curBest, best =>
    match scoreOf w with
    | none => none
    | some s =>
      match curBest with
      | none => bestLoopM better eqv scoreOf ws (some s) [w]
      | some bs =>
        if better s bs then bestLoopM better eqv scoreOf ws (some s) [w]
        else if eqv s bs then bestLoopM better eqv scoreOf ws (some bs) (best ++ [w])
        else bestLoopM better eqv scoreOf ws (some bs) best

def bestByM {β : Type} (better eqv : β → β → Bool) (scoreOf : String → Option β)
    (pool : List String) : Option (List String) :=
  bestLoopM better eqv scoreOf pool none []

/-- One word's contribution to the per-position counters (`counts[i][ch] += 1`;
`none` is the `IndexError` when the word is longer than the counter list). -/
def posCountsAdd : List (List Char) → List Char → Option (List (List Char))
  | cols, [] => some cols
  | [], _ :: _ => none
  | col :: cols, c :: cs => (posCountsAdd cols cs).map (fun rest => (c :: col) :: rest)

def buildPosCountsGo : List (List Char) → List String → Option (List (List Char))
  | cols, [] => some cols
  | cols, w :: ws =>
    match posCountsAdd cols w.data with
    | none => none
    | some cols2 => buildPosCountsGo cols2 ws

/-- `_build_pos_counts`: `self.N` counters filled from the given words. -/
def buildPosCounts (N : Nat) (words : List String) : Option (List (List Char)) :=
  buildPosCountsGo (List.replicate N []) words

/-- The positional-frequency score of one word
(`s += pos_counts[i][ch]`, minus `0.25` per repeated letter). -/
def plfScoreGo : List (List Char) → List Char → List Char → Option Rat
  | _, [], _ => some 0
  | [], _ :: _, _ => none
  | col :: cols, c :: cs, seen =>
    (plfScoreGo cols cs (if c ∈ seen then seen else c :: seen)).map (fun s =>
      ((col.count c : Rat) - (if c ∈ seen then 1/4 else 0)) + s)

/-- The pattern-bucket loop (`buckets[score(guess, ans)] += 1`), kept in
insertion order like a Python dict. -/
def bumpCount : List (String × Nat) → String → List (String × Nat)
  | [], k => [(k, 1)]
  | (k2, n) :: rest, k =>
    if k2 = k then (k2, n + 1) :: rest else (k2, n) :: bumpCount rest k

def bucketCountsGo (g : String) : List (String × Nat) → List String → Option (List (String × Nat))
  | acc, [] => some acc
  | acc, ans :: rest =>
    match score g ans with
    | none => none
    | some patt => bucketCountsGo g (bumpCount acc patt) rest

/-- The bucket sizes a guess induces on the current candidates. -/
def bucketCounts (g : String) (candidates : List String) : Option (List Nat) :=
  (bucketCountsGo g [] candidates).map (fun l => l.map (fun p => p.2))

/-! ### The nine registered solvers' `next_guess` methods -/

/-- `RandomConsistentSolver.next_guess`. -/
def randomConsistentNextGuess (N : Nat) (st : GameView) (r : Nat) : Option String :=
  let pool := if st.candidates ≠ [] then st.candidates else st.allowed
  if pool = [] then some (placeholderWord N)
  else pickIndex pool r

/-- `LetterFreqSolver.next_guess` (`CAND_POOL_LIMIT = 200`). -/
def letterFreqNextGuess (N : Nat) (st : GameView) (r : Nat) : Option String :=
  let pool := if st.candidates.length ≤ 200 then st.candidates else st.allowed
  let counts := if st.candidates ≠ [] then joinChars st.candidates else joinChars st.allowed
  match bestByM (fun s b => decide (b < s)) (fun s b => decide (s = b))
      (fun w => some (distinctScore counts w)) pool with
  | none => none
  | some best =>
    let best2 := if best ≠ [] then best
      else if pool ≠ [] then pool
      else if st.allowed ≠ [] then st.allowed
      else if st.candidates ≠ [] then st.candidates
      else [placeholderWord N]
    pickIndex best2 r

/-- `PositionalFreqSolver.next_guess` (`CAND_POOL_LIMIT = 200`,
`DUPLICATE_PENALTY = 0.25`). -/
def positionalFreqNextGuess (N : Nat) (st : GameView) (r : Nat) : Option String :=
  let pool := if st.candidates.length ≤ 200 then st.candidates else st.allowed
  if pool = [] then some (placeholderWord N)
  else
    match buildPosCounts N (if st.candidates ≠ [] then st.candidates else st.allowed) with
    | none => none
    | some cols =>
      match bestByM (fun s b => decide (b < s)) (fun s b => decide (s = b))
          (fun w => plfScoreGo cols w.data []) pool with
      | none => none
      | some best => pickIndex best r

/-- `_entropy_of_guess`: bucket entropy (bits, via the uninterpreted `lg`) and
worst bucket size. -/
def entropyOfGuess (lg : Rat → Rat) (g : String) (candidates : List String) :
    Option (Rat × Nat) :=
  let n := candidates.length
  if n ≤ 1 then some (0, 0)
  else
    (bucketCounts g candidates).map (fun counts =>
      (counts.foldl (fun acc c => acc + ((c : Rat) / (n : Rat)) * lg ((n : Rat) / (c : Rat))) 0,
       counts.foldl (fun acc c => max acc c) 0))

/-- `EntropySolver._select_pool` (`CANDIDATE_ONLY_LIMIT = 200`,
`POOL_CAP = 400`, `INCLUDE_TOP_CANDIDATES = 100`). -/
def entropySelectPool (st : GameView) : List String :=
  if st.candidates.length ≤ 200 then st.candidates
  else
    let counts := if st.candidates ≠ [] then joinChars st.candidates else joinChars st.allowed
    let pool := (sortDescBy (fun w => distinctScore counts w) st.allowed).take 400
    let topCands := (sortDescBy (fun w => distinctScore counts w) st.candidates).take
      (min 100 st.candidates.length)
    stableDedup (topCands ++ pool)

/-- The lexicographic objective shared by the entropy-style solvers: larger
first component, then smaller worst bucket. -/
def maxThenMinWorst (s b : Rat × Nat) : Bool :=
  decide (b.1 < s.1) || (decide (s.1 = b.1) && decide (s.2 < b.2))

def pairEqv (s b : Rat × Nat) : Bool := decide (s.1 = b.1) && decide (s.2 = b.2)

/-- `EntropySolver.next_guess`. -/
def entropyNextGuess (lg : Rat → Rat) (N : Nat) (st : GameView) (r : Nat) : Option String :=
  let pool := entropySelectPool st
  match bestByM maxThenMinWorst pairEqv (fun g => entropyOfGuess lg g st.candidates) pool with
  | none => none
  | some best =>
    let best2 := if best ≠ [] then best
      else if pool ≠ [] then pool
      else if st.allowed ≠ [] then st.allowed
      else if st.candidates ≠ [] then st.candidates
      else [placeholderWord N]
    pickIndex best2 r

/-- The prior weight `WeightedEntropySolver.reset` precomputes over the
reset-time allowed list (`max(1.0, distinct-letter coverage)`; 1 for words
outside the dict, matching `.get(w, 1.0)`). -/
def ewPrior (resetAllowed : List String) (w : String) : Rat :=
  if w ∈ resetAllowed then max 1 ((distinctScore (joinChars resetAllowed) w : Nat) : Rat)
  else 1

/-- The weighted-bucket accumulator of `_weighted_entropy`: per pattern, the
weight sum and the plain count. -/
def bumpW : List (String × Rat × Nat) → String → Rat → List (String × Rat × Nat)
  | [], k, w => [(k, w, 1)]
  | (k2, wv, c) :: rest, k, w =>
    if k2 = k then (k2, wv + w, c + 1) :: rest else (k2, wv, c) :: bumpW rest k w

def weightedBucketsGo (g : String) (weight : String → Rat) :
    List (String × Rat × Nat) → Rat → List String → Option (List (String × Rat × Nat) × Rat)
  | acc, totalW, [] => some (acc, totalW)
  | acc, totalW, ans :: rest =>
    match score g ans with
    | none => none
    | some patt => weightedBucketsGo g weight (bumpW acc patt (weight ans)) (totalW + weight ans) rest

/-- `_weighted_entropy`: (entropy, total weight, worst bucket count). -/
def weightedEntropy (lg : Rat → Rat) (g : String) (candidates : List String)
    (weight : String → Rat) : Option (Rat × Rat × Nat) :=
  match weightedBucketsGo g weight [] 0 candidates with
  | none => none
  | some (buckets, totalW) =>
    if totalW ≤ 0 then some (0, 0, 0)
    else some
      (buckets.foldl (fun acc p => acc + (p.2.1 / totalW) * lg (totalW / p.2.1)) 0,
       totalW,
       buckets.foldl (fun acc p => max acc p.2.2) 0)

/-- `WeightedEntropySolver.next_guess` (`CANDIDATE_ONLY_LIMIT = 200`,
`POOL_CAP = 400`). -/
def entropyWeightedNextGuess (lg : Rat → Rat) (resetAllowed : List String) (N : Nat)
    (st : GameView) (r : Nat) : Option String :=
  let pool := if st.candidates.length ≤ 200 then st.candidates
    else (sortDescBy (fun w => ewPrior resetAllowed w) st.allowed).take 400
  if pool = [] then some (placeholderWord N)
  else
    match bestByM maxThenMinWorst pairEqv
        (fun g => (weightedEntropy lg g st.candidates (ewPrior resetAllowed)).map
          (fun t => (t.1, t.2.2))) pool with
    | none => none
    | some best => pickIndex best r

/-- `_sum_c2_and_worst` from the Expected-Remaining-Candidates solver. -/
def sumC2AndWorst (g : String) (candidates : List String) : Option (Nat × Nat) :=
  (bucketCounts g candidates).map (fun counts =>
    (counts.foldl (fun acc c => acc + c * c) 0, counts.foldl (fun acc c => max acc c) 0))

/-- `ExpectedLeftSolver._select_pool` (`CANDIDATE_ONLY_LIMIT = 200`,
`POOL_CAP = 400`). -/
def expectedLeftSelectPool (st : GameView) : List String :=
  if st.candidates.length ≤ 200 then st.candidates
  else (sortDescBy (fun w => distinctScore (alphaChars st.candidates) w) st.allowed).take 400

/-- The lexicographic objective of ExpectedLeft: smaller sum of squared bucket
sizes, then smaller worst bucket. -/
def minThenMinWorst (s b : Nat × Nat) : Bool :=
  decide (s.1 < b.1) || (decide (s.1 = b.1) && decide (s.2 < b.2))

def natPairEqv (s b : Nat × Nat) : Bool := decide (s.1 = b.1) && decide (s.2 = b.2)

/-- `ExpectedLeftSolver.next_guess`. -/
def expectedLeftNextGuess (N : Nat) (st : GameView) (r : Nat) : Option String :=
  let pool := expectedLeftSelectPool st
  if pool = [] then some (placeholderWord N)
  else
    match bestByM minThenMinWorst natPairEqv (fun g => sumC2AndWorst g st.candidates) pool with
    | none => none
    | some best => pickIndex best r

/-- `_pattern_stats` from the Max-Pattern-Diversity solver. -/
def patternStats (g : String) (candidates : List String) : Option (Nat × Nat) :=
  (bucketCounts g candidates).map (fun counts =>
    (counts.length, counts.foldl (fun acc c => max acc c) 0))

/-- `MaxPatternsSolver._select_pool` (identical shape to ExpectedLeft's). -/
def maxPatternsSelectPool (st : GameView) : List String :=
  if st.candidates.length ≤ 200 then st.candidates
  else (sortDescBy (fun w => distinctScore (alphaChars st.candidates) w) st.allowed).take 400

/-- The lexicographic objective of MaxPatterns: more distinct patterns, then
smaller worst bucket. -/
def maxThenMinWorstNat (s b : Nat × Nat) : Bool :=
  decide (b.1 < s.1) || (decide (s.1 = b.1) && decide (s.2 < b.2))

/-- `MaxPatternsSolver.next_guess`. -/
def maxPatternsNextGuess (N : Nat) (st : GameView) (r : Nat) : Option String :=
  let pool := maxPatternsSelectPool st
  if pool = [] then some (placeholderWord N)
  else
    match bestByM maxThenMinWorstNat natPairEqv (fun g => patternStats g st.candidates) pool with
    | none => none
    | some best => pickIndex best r

/-- `_coverage_score`: distinct-letter coverage skipping banned letters. -/
def coverageScoreGo (counts banned seen : List Char) : List Char → Nat
  | [] => 0
  | c :: cs =>
    if c ∈ banned then coverageScoreGo counts banned seen cs
    else if c ∈ seen then coverageScoreGo counts banned seen cs
    else counts.count c + coverageScoreGo counts banned (c :: seen) cs

def coverageScore (counts banned : List Char) (w : String) : Nat :=
  coverageScoreGo counts banned [] w.data

/-- `TwoStageProbeSolver._pick_probe`. -/
def pickProbe (N : Nat) (pool : List String) (counts banned : List Char) (r : Nat) :
    Option String :=
  match bestByM (fun s b => decide (b < s)) (fun s b => decide (s = b))
      (fun w => some (coverageScore counts banned w)) pool with
  | none => none
  | some best => if best = [] then some (placeholderWord N) else pickIndex best r

/-- `TwoStageProbeSolver._plf_pick` (its local positional-frequency pick). -/
def plfPick (N : Nat) (candidates allowed : List String) (r : Nat) : Option String :=
  match buildPosCounts N candidates with
  | none => none
  | some cols =>
    let pool := if candidates.length ≤ 200 then candidates else allowed
    match bestByM (fun s b => decide (b < s)) (fun s b => decide (s = b))
        (fun w => plfScoreGo cols w.data []) pool with
    | none => none
    | some best => if best = [] then some (placeholderWord N) else pickIndex best r

/-- `TwoStageProbeSolver.next_guess` (`LARGE_THRESHOLD = 1200`): the turn-2
large-pool branch reads `state["history"][0]`, whose absence is an
`IndexError` (`none`). -/
def twoStageProbeNextGuess (N : Nat) (st : GameView) (r : Nat) : Option String :=
  if st.turn = 1 then
    let counts := alphaChars (if st.candidates ≠ [] then st.candidates else st.allowed)
    pickProbe N st.allowed counts [] r
  else if st.turn = 2 ∧ 1200 < st.candidates.length then
    match st.history.head? with
    | none => none
    | some e =>
      let banned := (pyLower e.1).data
      let counts := alphaChars (if st.candidates ≠ [] then st.candidates else st.allowed)
      pickProbe N st.allowed counts banned r
  else
    plfPick N st.candidates st.allowed r

/-- `TwoPlyMCSolver._plf_pick_on_candidates` (`CAND_CAP_PLY2 = 400`). -/
def plfPickOnCandidates (N : Nat) (cands : List String) (r : Nat) : Option String :=
  if cands = [] then some (placeholderWord N)
  else
    let counts := alphaChars cands
    let pool := (sortDescBy (fun w => distinctScore counts w) cands).take 400
    match buildPosCounts N cands with
    | none => none
    | some cols =>
      match bestByM (fun s b => decide (b < s)) (fun s b => decide (s = b))
          (fun w => plfScoreGo cols w.data []) pool with
      | none => none
      | some best => pickIndex best r

/-- `TwoPlyMCSolver._select_first_pool` (`FIRST_POOL_CAP = 40`). -/
def selectFirstPool (st : GameView) : List String :=
  let counts := alphaChars (if st.candidates ≠ [] then st.candidates else st.allowed)
  let base := (sortDescBy (fun w => distinctScore counts w) st.allowed).take 40
  let topCands := (sortDescBy (fun w => distinctScore counts w) st.candidates).take (40 / 2)
  stableDedup (topCands ++ base)

/-- `groups[score_fn(g, a)].append(a)`. -/
def groupAdd : List (String × List String) → String → String → List (String × List String)
  | [], k, a => [(k, [a])]
  | (k2, l) :: rest, k, a =>
    if k2 = k then (k2, l ++ [a]) :: rest else (k2, l) :: groupAdd rest k a

def groupByPatternGo (g : String) :
    List (String × List String) → List String → Option (List (String × List String))
  | acc, [] => some acc
  | acc, a :: rest =>
    match score g a with
    | none => none
    | some patt => groupByPatternGo g (groupAdd acc patt a) rest

/-- The inner accumulation over one first-pattern group: look up each sampled
answer's second-pattern bucket size. -/
def accumGroup (g2 : String) (buckets2 : List (String × Nat)) :
    List String → Nat → Nat → Nat → Option (Nat × Nat × Nat)
  | [], t, w, p => some (t, w, p)
  | a :: rest, t, w, p =>
    match score g2 a with
    | none => none
    | some patt2 =>
      let c2 := (buckets2.lookup patt2).getD 0
      accumGroup g2 buckets2 rest (t + c2) (max w c2) (p + 1)

/-- The per-first-guess evaluation of the two-ply search, with the early
pruning (`if avg_so_far >= best_avg: break`). -/
def evalGroups (N : Nat) (g : String) (candidates : List String) (rr : Nat)
    (bestAvg : Option Rat) :
    List (String × List String) → Nat → Nat → Nat → Option (Nat × Nat × Nat)
  | [], t, w, p => some (t, w, p)
  | (patt1, groupAnswers) :: rest, t, w, p =>
    match filter_candidates candidates [(g, patt1)] N with
    | none => none
    | some c1 =>
      if c1 = [] then evalGroups N g candidates rr bestAvg rest t w p
      else
        match plfPickOnCandidates N c1 rr with
        | none => none
        | some g2 =>
          match bucketCountsGo g2 [] c1 with
          | none => none
          | some buckets2 =>
            match accumGroup g2 buckets2 groupAnswers t w p with
            | none => none
            | some (t2, w2, p2) =>
              match bestAvg with
              | some ba =>
                if (t2 : Rat) / (p2 : Rat) ≥ ba then some (t2, w2, p2)
                else evalGroups N g candidates rr bestAvg rest t2 w2 p2
              | none => evalGroups N g candidates rr bestAvg rest t2 w2 p2

/-- The first-guess loop of the two-ply search (reset on a strictly better
(average, worst) pair, append on an exact tie). -/
def twoPlyLoop (N : Nat) (candidates sample : List String) (rr : Nat) :
    List String → Option (Rat × Nat) → List String → Option (List String)
  | [], _, best => some best
  | g :: gs, cur, best =>
    match groupByPatternGo g [] sample with
    | none => none
    | some groups =>
      match evalGroups N g candidates rr (cur.map (fun p => p.1)) groups 0 0 0 with
      | none => none
      | some (t, w, p) =>
        let avgLeft := (t : Rat) / ((max 1 p : Nat) : Rat)
        match cur with
        | none => twoPlyLoop N candidates sample rr gs (some (avgLeft, w)) [g]
        | some (ba, bw) =>
          if avgLeft < ba then twoPlyLoop N candidates sample rr gs (some (avgLeft, w)) [g]
          else if avgLeft = ba ∧ w < bw then
            twoPlyLoop N candidates sample rr gs (some (avgLeft, w)) [g]
          else if avgLeft = ba ∧ w = bw then
            twoPlyLoop N candidates sample rr gs (some (ba, bw)) (best ++ [g])
          else twoPlyLoop N candidates sample rr gs (some (ba, bw)) best

/-- `TwoPlyMCSolver.next_guess` (`SAMPLE_SIZE = 32`); `sampler` is the oracle
for `rng.sample(candidates, SAMPLE_SIZE)`. -/
def twoPlyMcNextGuess (sampler : List String → List String) (N : Nat) (st : GameView)
    (r : Nat) : Option String :=
  if 1 < st.turn then plfPickOnCandidates N st.candidates r
  else
    let pool := selectFirstPool st
    if pool = [] then some (placeholderWord N)
    else
      let sample := if st.candidates.length ≤ 32 then st.candidates else sampler st.candidates
      match twoPlyLoop N st.candidates sample r pool none [] with
      | none => none
      | some best => pickIndex best r

/-- The identifiers under which the nine solver classes register themselves
(imported, hence registered, by the bandit environment). -/
inductive SolverId where
  | random_consistent
  | letter_freq
  | positional_freq
  | entropy
  | entropy_weighted
  | expected_left
  | max_patterns
  | two_stage_probe
  | two_ply_mc

/-- Dispatch a registered solver's `next_guess` after `reset`: `lg` models
`math.log2`, `sampler` models `rng.sample`, `resetAllowed` is the allowed
list captured at `reset` (used by WeightedEntropy's priors), `N` is the reset
word length, and `r` is the randomness oracle for tie-breaks. -/
def nextGuessOf (sid : SolverId) (lg : Rat → Rat) (sampler : List String → List String)
    (resetAllowed : List String) (N : Nat) (st : GameView) (r : Nat) : Option String :=
  match sid with
  | .random_consistent => randomConsistentNextGuess N st r
  | .letter_freq => letterFreqNextGuess N st r
  | .positional_freq => positionalFreqNextGuess N st r
  | .entropy => entropyNextGuess lg N st r
  | .entropy_weighted => entropyWeightedNextGuess lg resetAllowed N st r
  | .expected_left => expectedLeftNextGuess N st r
  | .max_patterns => maxPatternsNextGuess N st r
  | .two_stage_probe => twoStageProbeNextGuess N st r
  | .two_ply_mc => twoPlyMcNextGuess sampler N st r

/-! ### Totality lemmas for the solver toolkit (towards claim C5) -/

lemma placeholderWord_length (N : Nat) : (placeholderWord N).length = N := by
  show (List.replicate N 'a').length = N
  exact List.length_replicate N 'a'

lemma pickIndex_spec (l : List String) (r : Nat) (h : l ≠ []) :
    ∃ w, pickIndex l r = some w ∧ w ∈ l := by
  have hlt : r % l.length < l.length := Nat.mod_lt r (List.length_pos.mpr h)
  exact ⟨l[r % l.length], List.getElem?_eq_getElem hlt, List.getElem_mem hlt⟩

lemma mem_insertDescBy {κ : Type} [LinearOrder κ] (key : String → κ) (x w : String)
    (l : List String) (h : w ∈ insertDescBy key x l) : w = x ∨ w ∈ l := by
  induction l with
  | nil =>
    simp only [insertDescBy, List.mem_singleton] at h
    exact Or.inl h
  | cons y ys ih =>
    simp only [insertDescBy] at h
    by_cases hk : key y < key x
    · rw [if_pos hk] at h
      rcases List.mem_cons.mp h with rfl | h2
      · exact Or.inl rfl
      · exact Or.inr h2
    · rw [if_neg hk] at h
      rcases List.mem_cons.mp h with rfl | h2
      · exact Or.inr (List.mem_cons_self w ys)
      · rcases ih h2 with h3 | h3
        · exact Or.inl h3
        · exact Or.inr (List.mem_cons_of_mem y h3)

lemma mem_sortDescBy {κ : Type} [LinearOrder κ] (key : String → κ) (w : String)
    (l : List String) (h : w ∈ sortDescBy key l) : w ∈ l := by
  induction l with
  | nil => exact absurd h (by simp [sortDescBy])
  | cons y ys ih =>
    have h2 : w ∈ insertDescBy key y (sortDescBy key ys) := h
    rcases mem_insertDescBy key y w (sortDescBy key ys) h2 with rfl | h3
    · exact List.mem_cons_self w ys
    · exact List.mem_cons_of_mem y (ih h3)

lemma length_insertDescBy {κ : Type} [LinearOrder κ] (key : String → κ) (x : String)
    (l : List String) : (insertDescBy key x l).length = l.length + 1 := by
  induction l with
  | nil => rfl
  | cons y ys ih =>
    simp only [insertDescBy]
    by_cases hk : key y < key x
    · rw [if_pos hk]
      rfl
    · rw [if_neg hk]
      simp [ih]

lemma length_sortDescBy {κ : Type} [LinearOrder κ] (key : String → κ) (l : List String) :
    (sortDescBy key l).length = l.length := by
  induction l with
  | nil => rfl
  | cons y ys ih =>
    show (insertDescBy key y (sortDescBy key ys)).length = ys.length + 1
    rw [length_insertDescBy, ih]

lemma sortDescBy_ne_nil {κ : Type} [LinearOrder κ] (key : String → κ) (l : List String)
    (h : l ≠ []) : sortDescBy key l ≠ [] := by
  intro hcon
  have := length_sortDescBy key l
  rw [hcon] at this
  exact h (List.length_eq_zero.mp this.symm)

lemma mem_stableDedupGo (seen l : List String) (w : String)
    (h : w ∈ stableDedupGo seen l) : w ∈ l := by
  induction l generalizing seen with
  | nil => exact absurd h (by simp [stableDedupGo])
  | cons x xs ih =>
    simp only [stableDedupGo] at h
    by_cases hx : x ∈ seen
    · rw [if_pos hx] at h
      exact List.mem_cons_of_mem x (ih seen h)
    · rw [if_neg hx] at h
      rcases List.mem_cons.mp h with rfl | h2
      · exact List.mem_cons_self w xs
      · exact List.mem_cons_of_mem x (ih (x :: seen) h2)

lemma mem_stableDedup (l : List String) (w : String) (h : w ∈ stableDedup l) : w ∈ l :=
  mem_stableDedupGo [] l w h

lemma bestLoopM_spec {β : Type} (better eqv : β → β → Bool) (scoreOf : String → Option β)
    (pool : List String) (cur : Option β) (best : List String)
    (hs : ∀ w ∈ pool, (scoreOf w).isSome = true)
    (hinv : cur.isSome = true → best ≠ []) :
    ∃ l, bestLoopM better eqv scoreOf pool cur best = some l ∧
      (∀ x ∈ l, x ∈ pool ∨ x ∈ best) ∧ (l = [] → pool = [] ∧ best = []) := by
  induction pool generalizing cur best with
  | nil =>
    exact ⟨best, rfl, fun x hx => Or.inr hx, fun hb => ⟨rfl, hb⟩⟩
  | cons w ws ih =>
    obtain ⟨s, hsw⟩ := Option.isSome_iff_exists.mp (hs w (List.mem_cons_self w ws))
    have hs2 : ∀ x ∈ ws, (scoreOf x).isSome = true :=
      fun x hx => hs x (List.mem_cons_of_mem w hx)
    cases cur with
    | none =>
      obtain ⟨l, hl, hmem, hemp⟩ := ih (some s) [w] hs2 (fun _ => by simp)
      refine ⟨l, ?_, ?_, ?_⟩
      · simp only [bestLoopM, hsw]
        exact hl
      · intro x hx
        rcases hmem x hx with h2 | h2
        · exact Or.inl (List.mem_cons_of_mem w h2)
        · rcases List.mem_singleton.mp h2 with rfl
          exact Or.inl (List.mem_cons_self x ws)
      · intro hle
        exact absurd (hemp hle).2 (by simp)
    | some bs =>
      have hbne : best ≠ [] := hinv rfl
      by_cases hbet : better s bs = true
      · obtain ⟨l, hl, hmem, hemp⟩ := ih (some s) [w] hs2 (fun _ => by simp)
        refine ⟨l, ?_, ?_, ?_⟩
        · simp only [bestLoopM, hsw, hbet, if_pos]
          exact hl
        · intro x hx
          rcases hmem x hx with h2 | h2
          · exact Or.inl (List.mem_cons_of_mem w h2)
          · rcases List.mem_singleton.mp h2 with rfl
            exact Or.inl (List.mem_cons_self x ws)
        · intro hle
          exact absurd (hemp hle).2 (by simp)
      · by_cases heqv : eqv s bs = true
        · obtain ⟨l, hl, hmem, hemp⟩ := ih (some bs) (best ++ [w]) hs2 (fun _ => by simp)
          refine ⟨l, ?_, ?_, ?_⟩
          · simp only [bestLoopM, hsw]
            rw [if_neg (by simp [hbet]), if_pos heqv]
            exact hl
          · intro x hx
            rcases hmem x hx with h2 | h2
            · exact Or.inl (List.mem_cons_of_mem w h2)
            · rcases List.mem_append.mp h2 with h3 | h3
              · exact Or.inr h3
              · rcases List.mem_singleton.mp h3 with rfl
                exact Or.inl (List.mem_cons_self x ws)
          · intro hle
            exact absurd (hemp hle).2 (by simp)
        · obtain ⟨l, hl, hmem, hemp⟩ := ih (some bs) best hs2 (fun _ => hbne)
          refine ⟨l, ?_, ?_, ?_⟩
          · simp only [bestLoopM, hsw]
            rw [if_neg (by simp [hbet]), if_neg (by simp [heqv])]
            exact hl
          · intro x hx
            rcases hmem x hx with h2 | h2
            · exact Or.inl (List.mem_cons_of_mem w h2)
            · exact Or.inr h2
          · intro hle
            exact absurd (hemp hle).2 hbne

lemma bestByM_spec {β : Type} (better eqv : β → β → Bool) (scoreOf : String → Option β)
    (pool : List String) (hs : ∀ w ∈ pool, (scoreOf w).isSome = true) :
    ∃ l, bestByM better eqv scoreOf pool = some l ∧
      (∀ x ∈ l, x ∈ pool) ∧ (pool ≠ [] → l ≠ []) := by
  obtain ⟨l, hl, hmem, hemp⟩ := bestLoopM_spec better eqv scoreOf pool none []
    hs (fun hcon => by cases hcon)
  refine ⟨l, hl, fun x hx => ?_, fun hp hcon => hp (hemp hcon).1⟩
  rcases hmem x hx with h2 | h2
  · exact h2
  · cases h2

lemma score_isSome_clean (g w : String) (N : Nat)
    (hg : isCleanWord g = true) (hgN : g.length = N)
    (hw : isCleanWord w = true) (hwN : w.length = N) :
    (score g w).isSome = true := by
  rw [score_isSome_iff, normWord_of_clean hg, normWord_of_clean hw, hgN, hwN]

lemma posCountsAdd_spec (cols : List (List Char)) (w : List Char)
    (h : w.length ≤ cols.length) :
    ∃ cols2, posCountsAdd cols w = some cols2 ∧ cols2.length = cols.length := by
  induction w generalizing cols with
  | nil => exact ⟨cols, by cases cols <;> rfl, rfl⟩
  | cons c cs ih =>
    cases cols with
    | nil => simp at h
    | cons col cols2 =>
      obtain ⟨cols3, hc3, hlen⟩ := ih cols2 (by simpa using h)
      exact ⟨(c :: col) :: cols3, by simp only [posCountsAdd, hc3, Option.map_some'],
        by simp [hlen]⟩

lemma buildPosCountsGo_spec (cols : List (List Char)) (ws : List String)
    (h : ∀ w ∈ ws, w.data.length ≤ cols.length) :
    ∃ cols2, buildPosCountsGo cols ws = some cols2 ∧ cols2.length = cols.length := by
  induction ws generalizing cols with
  | nil => exact ⟨cols, rfl, rfl⟩
  | cons w ws2 ih =>
    obtain ⟨cols2, hc2, hlen2⟩ := posCountsAdd_spec cols w.data
      (h w (List.mem_cons_self w ws2))
    obtain ⟨cols3, hc3, hlen3⟩ := ih cols2
      (fun x hx => hlen2 ▸ h x (List.mem_cons_of_mem w hx))
    exact ⟨cols3, by simp only [buildPosCountsGo, hc2, hc3], hlen3.trans hlen2⟩

lemma buildPosCounts_spec (N : Nat) (words : List String)
    (h : ∀ w ∈ words, w.data.length ≤ N) :
    ∃ cols, buildPosCounts N words = some cols ∧ cols.length = N := by
  obtain ⟨cols, hc, hlen⟩ := buildPosCountsGo_spec (List.replicate N []) words
    (fun w hw => by simpa using h w hw)
  exact ⟨cols, hc, by simpa using hlen⟩

lemma plfScoreGo_isSome (w : List Char) (cols : List (List Char)) (seen : List Char)
    (h : w.length ≤ cols.length) : (plfScoreGo cols w seen).isSome = true := by
  induction w generalizing cols seen with
  | nil =>
    cases cols <;> rfl
  | cons c cs ih =>
    cases cols with
    | nil => simp at h
    | cons col cols2 =>
      simp only [plfScoreGo]
      have := ih cols2 (if c ∈ seen then seen else c :: seen) (by simpa using h)
      obtain ⟨s, hsv⟩ := Option.isSome_iff_exists.mp this
      rw [hsv]
      rfl

lemma bucketCountsGo_isSome (g : String) (acc : List (String × Nat)) (cands : List String)
    (h : ∀ a ∈ cands, (score g a).isSome = true) :
    ∃ l, bucketCountsGo g acc cands = some l := by
  induction cands generalizing acc with
  | nil => exact ⟨acc, rfl⟩
  | cons a rest ih =>
    obtain ⟨p, hp⟩ := Option.isSome_iff_exists.mp (h a (List.mem_cons_self a rest))
    obtain ⟨l, hl⟩ := ih (bumpCount acc p) (fun x hx => h x (List.mem_cons_of_mem a hx))
    exact ⟨l, by simp only [bucketCountsGo, hp, hl]⟩

lemma bucketCounts_isSome (g : String) (cands : List String)
    (h : ∀ a ∈ cands, (score g a).isSome = true) :
    (bucketCounts g cands).isSome = true := by
  obtain ⟨l, hl⟩ := bucketCountsGo_isSome g [] cands h
  simp [bucketCounts, hl]

lemma weightedBucketsGo_isSome (g : String) (weight : String → Rat)
    (acc : List (String × Rat × Nat)) (totalW : Rat) (cands : List String)
    (h : ∀ a ∈ cands, (score g a).isSome = true) :
    ∃ res, weightedBucketsGo g weight acc totalW cands = some res := by
  induction cands generalizing acc totalW with
  | nil => exact ⟨(acc, totalW), rfl⟩
  | cons a rest ih =>
    obtain ⟨p, hp⟩ := Option.isSome_iff_exists.mp (h a (List.mem_cons_self a rest))
    obtain ⟨res, hres⟩ := ih (bumpW acc p (weight a)) (totalW + weight a)
      (fun x hx => h x (List.mem_cons_of_mem a hx))
    exact ⟨res, by simp only [weightedBucketsGo, hp, hres]⟩

lemma mem_groupAdd (acc : List (String × List String)) (k a : String)
    (p : String × List String) (hp : p ∈ groupAdd acc k a) :
    ∀ x ∈ p.2, (∃ q ∈ acc, x ∈ q.2) ∨ x = a := by
  induction acc with
  | nil =>
    simp only [groupAdd, List.mem_singleton] at hp
    subst hp
    intro x hx
    exact Or.inr (List.mem_singleton.mp hx)
  | cons q2 rest ih =>
    obtain ⟨k2, l2⟩ := q2
    simp only [groupAdd] at hp
    by_cases hk : k2 = k
    · rw [if_pos hk] at hp
      rcases List.mem_cons.mp hp with rfl | h2
      · intro x hx
        rcases List.mem_append.mp hx with h3 | h3
        · exact Or.inl ⟨(k2, l2), List.mem_cons_self _ _, h3⟩
        · exact Or.inr (List.mem_singleton.mp h3)
      · intro x hx
        exact Or.inl ⟨p, List.mem_cons_of_mem _ h2, hx⟩
    · rw [if_neg hk] at hp
      rcases List.mem_cons.mp hp with rfl | h2
      · intro x hx
        exact Or.inl ⟨(k2, l2), List.mem_cons_self _ _, hx⟩
      · intro x hx
        rcases ih h2 x hx with ⟨q3, hq3, hx3⟩ | h3
        · exact Or.inl ⟨q3, List.mem_cons_of_mem _ hq3, hx3⟩
        · exact Or.inr h3

lemma groupByPatternGo_spec (g : String) (acc : List (String × List String))
    (sample : List String) (h : ∀ a ∈ sample, (score g a).isSome = true) :
    ∃ groups, groupByPatternGo g acc sample = some groups ∧
      ∀ p ∈ groups, ∀ x ∈ p.2, (∃ q ∈ acc, x ∈ q.2) ∨ x ∈ sample := by
  induction sample generalizing acc with
  | nil => exact ⟨acc, rfl, fun p hp x hx => Or.inl ⟨p, hp, hx⟩⟩
  | cons a rest ih =>
    obtain ⟨patt, hpatt⟩ := Option.isSome_iff_exists.mp (h a (List.mem_cons_self a rest))
    obtain ⟨groups, hg2, hmem⟩ := ih (groupAdd acc patt a)
      (fun x hx => h x (List.mem_cons_of_mem a hx))
    refine ⟨groups, by simp only [groupByPatternGo, hpatt, hg2], ?_⟩
    intro p hp x hx
    rcases hmem p hp x hx with ⟨q, hq, hxq⟩ | h2
    · rcases mem_groupAdd acc patt a q hq x hxq with ⟨q2, hq2, hxq2⟩ | h3
      · exact Or.inl ⟨q2, hq2, hxq2⟩
      · exact Or.inr (h3 ▸ List.mem_cons_self a rest)
    · exact Or.inr (List.mem_cons_of_mem a h2)

lemma accumGroup_isSome (g2 : String) (buckets2 : List (String × Nat))
    (answers : List String) (t w p : Nat)
    (h : ∀ a ∈ answers, (score g2 a).isSome = true) :
    ∃ res, accumGroup g2 buckets2 answers t w p = some res := by
  induction answers generalizing t w p with
  | nil => exact ⟨(t, w, p), rfl⟩
  | cons a rest ih =>
    obtain ⟨patt, hpatt⟩ := Option.isSome_iff_exists.mp (h a (List.mem_cons_self a rest))
    obtain ⟨res, hres⟩ := ih (t + (buckets2.lookup patt).getD 0)
      (max w ((buckets2.lookup patt).getD 0)) (p + 1)
      (fun x hx => h x (List.mem_cons_of_mem a hx))
    exact ⟨res, by simp only [accumGroup, hpatt, hres]⟩

lemma filter_clean_spec (cands : List String) (g patt : String) (N : Nat)
    (hc : ∀ w ∈ cands, isCleanWord w = true) (hgN : (normWord g).length = N) :
    ∃ l, filter_candidates cands [(g, patt)] N = some l ∧ ∀ w ∈ l, w ∈ cands := by
  have hmap : cands.map normWord = cands :=
    (List.map_congr_left (fun w hw => normWord_of_clean (hc w hw))).trans
      (List.map_id' cands)
  have hsingle : ∀ gp ∈ [(g, patt)], (normWord gp.1).length = N := by
    intro gp hgp
    rw [List.mem_singleton.mp hgp, hgN]
  refine ⟨(cands.map normWord).filter (keepWord [(g, patt)] N),
    filter_candidates_eq cands [(g, patt)] N hsingle, ?_⟩
  intro w hw
  rw [hmap] at hw
  exact List.mem_of_mem_filter hw

lemma pickProbe_spec (N : Nat) (pool : List String) (counts banned : List Char) (r : Nat)
    (hpool : ∀ w ∈ pool, w.length = N) :
    ∃ g, pickProbe N pool counts banned r = some g ∧ g.length = N := by
  obtain ⟨best, hbest, hmem, -⟩ := bestByM_spec (fun s b => decide (b < s))
    (fun s b => decide (s = b)) (fun w => some (coverageScore counts banned w)) pool
    (fun w _ => rfl)
  by_cases hb : best = []
  · exact ⟨placeholderWord N, by simp only [pickProbe, hbest, if_pos hb],
      placeholderWord_length N⟩
  · obtain ⟨w, hw, hwmem⟩ := pickIndex_spec best r hb
    exact ⟨w, by simp only [pickProbe, hbest, if_neg hb, hw], hpool w (hmem w hwmem)⟩

lemma plfPick_spec (N : Nat) (cands allowed : List String) (r : Nat)
    (hc : ∀ w ∈ cands, w.length = N) (ha : ∀ w ∈ allowed, w.length = N) :
    ∃ g, plfPick N cands allowed r = some g ∧ g.length = N := by
  obtain ⟨cols, hcols, hclen⟩ := buildPosCounts_spec N cands
    (fun w hw => le_of_eq (hc w hw))
  have hpoolN : ∀ w ∈ (if cands.length ≤ 200 then cands else allowed), w.length = N := by
    by_cases h2 : cands.length ≤ 200
    · rw [if_pos h2]
      exact hc
    · rw [if_neg h2]
      exact ha
  obtain ⟨best, hbest, hmem, -⟩ := bestByM_spec (fun s b => decide (b < s))
    (fun s b => decide (s = b)) (fun w => plfScoreGo cols w.data [])
    (if cands.length ≤ 200 then cands else allowed)
    (fun w hw => plfScoreGo_isSome w.data cols []
      (by rw [hclen]; exact le_of_eq (hpoolN w hw)))
  by_cases hb : best = []
  · exact ⟨placeholderWord N, by simp only [plfPick, hcols, hbest, if_pos hb],
      placeholderWord_length N⟩
  · obtain ⟨w, hw, hwmem⟩ := pickIndex_spec best r hb
    exact ⟨w, by simp only [plfPick, hcols, hbest, if_neg hb, hw],
      hpoolN w (hmem w hwmem)⟩

lemma plfPickOnCandidates_spec (N : Nat) (cands : List String) (r : Nat)
    (h : ∀ x ∈ cands, isCleanWord x = true ∧ x.length = N) :
    ∃ g, plfPickOnCandidates N cands r = some g ∧ g.length = N ∧
      (cands ≠ [] → g ∈ cands) := by
  by_cases he : cands = []
  · exact ⟨placeholderWord N, by simp only [plfPickOnCandidates, if_pos he],
      placeholderWord_length N, fun hcon => absurd he hcon⟩
  · have hpool_sub : ∀ x ∈ (sortDescBy (fun w => distinctScore (alphaChars cands) w)
        cands).take 400, x ∈ cands :=
      fun x hx => mem_sortDescBy _ x cands (List.take_subset 400 _ hx)
    have hpool_ne : (sortDescBy (fun w => distinctScore (alphaChars cands) w)
        cands).take 400 ≠ [] := by
      intro hcon
      have h1 := congrArg List.length hcon
      rw [List.length_take, length_sortDescBy] at h1
      simp only [List.length_nil] at h1
      rcases Nat.min_eq_zero_iff.mp h1 with h2 | h2
      · cases h2
      · exact he (List.length_eq_zero.mp h2)
    obtain ⟨cols, hcols, hclen⟩ := buildPosCounts_spec N cands
      (fun w hw => le_of_eq (h w hw).2)
    obtain ⟨best, hbest, hmem, hbne⟩ := bestByM_spec (fun s b => decide (b < s))
      (fun s b => decide (s = b)) (fun w => plfScoreGo cols w.data [])
      ((sortDescBy (fun w => distinctScore (alphaChars cands) w) cands).take 400)
      (fun w hw => plfScoreGo_isSome w.data cols []
        (by rw [hclen]; exact le_of_eq (h w (hpool_sub w hw)).2))
    obtain ⟨g, hg, hgm⟩ := pickIndex_spec best r (hbne hpool_ne)
    exact ⟨g, by simp only [plfPickOnCandidates, if_neg he, hcols, hbest, hg],
      (h g (hpool_sub g (hmem g hgm))).2, fun _ => hpool_sub g (hmem g hgm)⟩

lemma evalGroups_isSome (N : Nat) (g : String) (candidates : List String) (rr : Nat)
    (bestAvg : Option Rat) (groups : List (String × List String)) (t w p : Nat)
    (hgc : isCleanWord g = true) (hgN : g.length = N)
    (hc : ∀ x ∈ candidates, isCleanWord x = true ∧ x.length = N)
    (hgroups : ∀ q ∈ groups, ∀ a ∈ q.2, a ∈ candidates) :
    ∃ res, evalGroups N g candidates rr bestAvg groups t w p = some res := by
  induction groups generalizing t w p with
  | nil => exact ⟨(t, w, p), rfl⟩
  | cons q rest ih =>
    obtain ⟨patt1, groupAnswers⟩ := q
    have hrest : ∀ q2 ∈ rest, ∀ a ∈ q2.2, a ∈ candidates :=
      fun q2 hq2 => hgroups q2 (List.mem_cons_of_mem _ hq2)
    have hnorm : (normWord g).length = N := by rw [normWord_of_clean hgc, hgN]
    obtain ⟨c1, hc1, hc1sub⟩ := filter_clean_spec candidates g patt1 N
      (fun x hx => (hc x hx).1) hnorm
    by_cases hc1e : c1 = []
    · obtain ⟨res, hres⟩ := ih t w p hrest
      exact ⟨res, by simp only [evalGroups, hc1, if_pos hc1e, hres]⟩
    · have hc1all : ∀ x ∈ c1, isCleanWord x = true ∧ x.length = N :=
        fun x hx => hc x (hc1sub x hx)
      obtain ⟨g2, hg2, hg2N, hg2mem⟩ := plfPickOnCandidates_spec N c1 rr hc1all
      have hg2c : isCleanWord g2 = true ∧ g2.length = N := hc1all g2 (hg2mem hc1e)
      obtain ⟨buckets2, hb2⟩ := bucketCountsGo_isSome g2 [] c1
        (fun a hax => score_isSome_clean g2 a N hg2c.1 hg2c.2
          (hc1all a hax).1 (hc1all a hax).2)
      obtain ⟨⟨t2, w2, p2⟩, hacc⟩ := accumGroup_isSome g2 buckets2 groupAnswers t w p
        (fun a hax => score_isSome_clean g2 a N hg2c.1 hg2c.2
          (hc a (hgroups (patt1, groupAnswers) (List.mem_cons_self _ _) a hax)).1
          (hc a (hgroups (patt1, groupAnswers) (List.mem_cons_self _ _) a hax)).2)
      cases bestAvg with
      | none =>
        obtain ⟨res, hres⟩ := ih t2 w2 p2 hrest
        exact ⟨res, by simp only [evalGroups, hc1, if_neg hc1e, hg2, hb2, hacc, hres]⟩
      | some ba =>
        by_cases hprune : (t2 : Rat) / (p2 : Rat) ≥ ba
        · exact ⟨(t2, w2, p2), by
            simp only [evalGroups, hc1, if_neg hc1e, hg2, hb2, hacc, if_pos hprune]⟩
        · obtain ⟨res, hres⟩ := ih t2 w2 p2 hrest
          exact ⟨res, by
            simp only [evalGroups, hc1, if_neg hc1e, hg2, hb2, hacc, if_neg hprune, hres]⟩

lemma twoPlyLoop_spec (N : Nat) (candidates sample : List String) (rr : Nat)
    (pool : List String) (cur : Option (Rat × Nat)) (best : List String)
    (hc : ∀ x ∈ candidates, isCleanWord x = true ∧ x.length = N)
    (hsamp : ∀ a ∈ sample, a ∈ candidates)
    (hpool : ∀ g ∈ pool, isCleanWord g = true ∧ g.length = N)
    (hinv : cur.isSome = true → best ≠ []) :
    ∃ l, twoPlyLoop N candidates sample rr pool cur best = some l ∧
      (∀ x ∈ l, x ∈ pool ∨ x ∈ best) ∧ (l = [] → pool = [] ∧ best = []) := by
  induction pool generalizing cur best with
  | nil => exact ⟨best, rfl, fun x hx => Or.inr hx, fun hb => ⟨rfl, hb⟩⟩
  | cons g gs ih =>
    have hgp := hpool g (List.mem_cons_self g gs)
    have hpool2 : ∀ x ∈ gs, isCleanWord x = true ∧ x.length = N :=
      fun x hx => hpool x (List.mem_cons_of_mem g hx)
    obtain ⟨groups, hgroups, hgmem⟩ := groupByPatternGo_spec g [] sample
      (fun a hax => score_isSome_clean g a N hgp.1 hgp.2
        (hc a (hsamp a hax)).1 (hc a (hsamp a hax)).2)
    have hgrc : ∀ q ∈ groups, ∀ a ∈ q.2, a ∈ candidates := by
      intro q hq a haq
      rcases hgmem q hq a haq with ⟨q2, hq2, -⟩ | h2
      · cases hq2
      · exact hsamp a h2
    obtain ⟨⟨t, w2, p2⟩, heval⟩ := evalGroups_isSome N g candidates rr
      (cur.map (fun pr => pr.1)) groups 0 0 0 hgp.1 hgp.2 hc hgrc
    cases cur with
    | none =>
      obtain ⟨l, hl, hmem, hemp⟩ := ih (some ((t : Rat) / ((max 1 p2 : Nat) : Rat), w2)) [g] hpool2
        (fun _ => by simp)
      refine ⟨l, by simp only [twoPlyLoop, hgroups, heval, hl], ?_, ?_⟩
      · intro x hx
        rcases hmem x hx with h2 | h2
        · exact Or.inl (List.mem_cons_of_mem g h2)
        · rcases List.mem_singleton.mp h2 with rfl
          exact Or.inl (List.mem_cons_self x gs)
      · intro hle
        exact absurd (hemp hle).2 (by simp)
    | some pr =>
      obtain ⟨ba, bw⟩ := pr
      have hbne : best ≠ [] := hinv rfl
      by_cases h1 : (t : Rat) / ((max 1 p2 : Nat) : Rat) < ba
      · obtain ⟨l, hl, hmem, hemp⟩ := ih (some ((t : Rat) / ((max 1 p2 : Nat) : Rat), w2)) [g] hpool2
          (fun _ => by simp)
        refine ⟨l, by simp only [twoPlyLoop, hgroups, heval, if_pos h1, hl], ?_, ?_⟩
        · intro x hx
          rcases hmem x hx with h2 | h2
          · exact Or.inl (List.mem_cons_of_mem g h2)
          · rcases List.mem_singleton.mp h2 with rfl
            exact Or.inl (List.mem_cons_self x gs)
        · intro hle
          exact absurd (hemp hle).2 (by simp)
      · by_cases h2 : (t : Rat) / ((max 1 p2 : Nat) : Rat) = ba ∧ w2 < bw
        · obtain ⟨l, hl, hmem, hemp⟩ := ih (some ((t : Rat) / ((max 1 p2 : Nat) : Rat), w2)) [g] hpool2
            (fun _ => by simp)
          refine ⟨l, by
            simp only [twoPlyLoop, hgroups, heval, if_neg h1, if_pos h2, hl], ?_, ?_⟩
          · intro x hx
            rcases hmem x hx with h3 | h3
            · exact Or.inl (List.mem_cons_of_mem g h3)
            · rcases List.mem_singleton.mp h3 with rfl
              exact Or.inl (List.mem_cons_self x gs)
          · intro hle
            exact absurd (hemp hle).2 (by simp)
        · by_cases h3 : (t : Rat) / ((max 1 p2 : Nat) : Rat) = ba ∧ w2 = bw
          · obtain ⟨l, hl, hmem, hemp⟩ := ih (some (ba, bw)) (best ++ [g]) hpool2
              (fun _ => by simp)
            refine ⟨l, by
              simp only [twoPlyLoop, hgroups, heval, if_neg h1, if_neg h2, if_pos h3, hl],
              ?_, ?_⟩
            · intro x hx
              rcases hmem x hx with h4 | h4
              · exact Or.inl (List.mem_cons_of_mem g h4)
              · rcases List.mem_append.mp h4 with h5 | h5
                · exact Or.inr h5
                · rcases List.mem_singleton.mp h5 with rfl
                  exact Or.inl (List.mem_cons_self x gs)
            · intro hle
              exact absurd (hemp hle).2 (by simp)
          · obtain ⟨l, hl, hmem, hemp⟩ := ih (some (ba, bw)) best hpool2 (fun _ => hbne)
            refine ⟨l, by
              simp only [twoPlyLoop, hgroups, heval, if_neg h1, if_neg h2, if_neg h3, hl],
              ?_, ?_⟩
            · intro x hx
              rcases hmem x hx with h4 | h4
              · exact Or.inl (List.mem_cons_of_mem g h4)
              · exact Or.inr h4
            · intro hle
              exact absurd (hemp hle).2 hbne

lemma fallback2_spec (N : Nat) (best pool al cd : List String) (r : Nat)
    (hb : ∀ w ∈ best, w.length = N) (hp : ∀ w ∈ pool, w.length = N)
    (hal : ∀ w ∈ al, w.length = N) (hcd : ∀ w ∈ cd, w.length = N) :
    ∃ g, pickIndex (if best ≠ [] then best else if pool ≠ [] then pool
      else if al ≠ [] then al else if cd ≠ [] then cd else [placeholderWord N]) r
      = some g ∧ g.length = N := by
  by_cases h1 : best ≠ []
  · rw [if_pos h1]
    obtain ⟨g, hg, hgm⟩ := pickIndex_spec best r h1
    exact ⟨g, hg, hb g hgm⟩
  · rw [if_neg h1]
    by_cases h2 : pool ≠ []
    · rw [if_pos h2]
      obtain ⟨g, hg, hgm⟩ := pickIndex_spec pool r h2
      exact ⟨g, hg, hp g hgm⟩
    · rw [if_neg h2]
      by_cases h3 : al ≠ []
      · rw [if_pos h3]
        obtain ⟨g, hg, hgm⟩ := pickIndex_spec al r h3
        exact ⟨g, hg, hal g hgm⟩
      · rw [if_neg h3]
        by_cases h4 : cd ≠ []
        · rw [if_pos h4]
          obtain ⟨g, hg, hgm⟩ := pickIndex_spec cd r h4
          exact ⟨g, hg, hcd g hgm⟩
        · rw [if_neg h4]
          obtain ⟨g, hg, hgm⟩ := pickIndex_spec [placeholderWord N] r (by simp)
          refine ⟨g, hg, ?_⟩
          rw [List.mem_singleton.mp hgm]
          exact placeholderWord_length N

lemma entropySelectPool_sub (st : GameView) :
    ∀ w ∈ entropySelectPool st, w ∈ st.candidates ∨ w ∈ st.allowed := by
  intro w hw
  simp only [entropySelectPool] at hw
  by_cases h2 : st.candidates.length ≤ 200
  · rw [if_pos h2] at hw
    exact Or.inl hw
  · rw [if_neg h2] at hw
    rcases List.mem_append.mp (mem_stableDedup _ w hw) with h3 | h3
    · exact Or.inl (mem_sortDescBy _ w st.candidates (List.take_subset _ _ h3))
    · exact Or.inr (mem_sortDescBy _ w st.allowed (List.take_subset _ _ h3))

lemma expectedLeftSelectPool_sub (st : GameView) :
    ∀ w ∈ expectedLeftSelectPool st, w ∈ st.candidates ∨ w ∈ st.allowed := by
  intro w hw
  simp only [expectedLeftSelectPool] at hw
  by_cases h2 : st.candidates.length ≤ 200
  · rw [if_pos h2] at hw
    exact Or.inl hw
  · rw [if_neg h2] at hw
    exact Or.inr (mem_sortDescBy _ w st.allowed (List.take_subset _ _ hw))

lemma maxPatternsSelectPool_sub (st : GameView) :
    ∀ w ∈ maxPatternsSelectPool st, w ∈ st.candidates ∨ w ∈ st.allowed := by
  intro w hw
  simp only [maxPatternsSelectPool] at hw
  by_cases h2 : st.candidates.length ≤ 200
  · rw [if_pos h2] at hw
    exact Or.inl hw
  · rw [if_neg h2] at hw
    exact Or.inr (mem_sortDescBy _ w st.allowed (List.take_subset _ _ hw))

lemma selectFirstPool_sub (st : GameView) :
    ∀ w ∈ selectFirstPool st, w ∈ st.candidates ∨ w ∈ st.allowed := by
  intro w hw
  simp only [selectFirstPool] at hw
  rcases List.mem_append.mp (mem_stableDedup _ w hw) with h2 | h2
  · exact Or.inl (mem_sortDescBy _ w st.candidates (List.take_subset _ _ h2))
  · exact Or.inr (mem_sortDescBy _ w st.allowed (List.take_subset _ _ h2))

lemma entropyOfGuess_isSome (lg : Rat → Rat) (g : String) (candidates : List String)
    (N : Nat) (hg : isCleanWord g = true) (hgN : g.length = N)
    (hc : ∀ w ∈ candidates, isCleanWord w = true ∧ w.length = N) :
    (entropyOfGuess lg g candidates).isSome = true := by
  simp only [entropyOfGuess]
  by_cases h2 : candidates.length ≤ 1
  · rw [if_pos h2]
    rfl
  · rw [if_neg h2]
    obtain ⟨bs, hbs⟩ := Option.isSome_iff_exists.mp (bucketCounts_isSome g candidates
      (fun a ha => score_isSome_clean g a N hg hgN (hc a ha).1 (hc a ha).2))
    rw [hbs]
    rfl

lemma weightedEntropy_isSome (lg : Rat → Rat) (g : String) (candidates : List String)
    (weight : String → Rat) (N : Nat)
    (hg : isCleanWord g = true) (hgN : g.length = N)
    (hc : ∀ w ∈ candidates, isCleanWord w = true ∧ w.length = N) :
    ∃ v, weightedEntropy lg g candidates weight = some v := by
  obtain ⟨⟨buckets, totalW⟩, hres⟩ := weightedBucketsGo_isSome g weight [] 0 candidates
    (fun a ha => score_isSome_clean g a N hg hgN (hc a ha).1 (hc a ha).2)
  by_cases h2 : totalW ≤ 0
  · exact ⟨(0, 0, 0), by simp only [weightedEntropy, hres, if_pos h2]⟩
  · refine ⟨(buckets.foldl (fun acc p => acc + (p.2.1 / totalW) * lg (totalW / p.2.1)) 0,
      totalW, buckets.foldl (fun acc p => max acc p.2.2) 0), ?_⟩
    simp only [weightedEntropy, hres, if_neg h2]

lemma randomConsistent_total (N : Nat) (st : GameView) (r : Nat)
    (hc : ∀ w ∈ st.candidates, w.length = N) (ha : ∀ w ∈ st.allowed, w.length = N) :
    ∃ g, randomConsistentNextGuess N st r = some g ∧ g.length = N := by
  have hpoolN : ∀ w ∈ (if st.candidates ≠ [] then st.candidates else st.allowed),
      w.length = N := by
    by_cases h2 : st.candidates ≠ []
    · rw [if_pos h2]
      exact hc
    · rw [if_neg h2]
      exact ha
  by_cases hp : (if st.candidates ≠ [] then st.candidates else st.allowed) = []
  · exact ⟨placeholderWord N, by simp only [randomConsistentNextGuess, if_pos hp],
      placeholderWord_length N⟩
  · obtain ⟨g, hg, hgm⟩ := pickIndex_spec _ r hp
    exact ⟨g, by simp only [randomConsistentNextGuess, if_neg hp, hg], hpoolN g hgm⟩

lemma letterFreq_total (N : Nat) (st : GameView) (r : Nat)
    (hc : ∀ w ∈ st.candidates, w.length = N) (ha : ∀ w ∈ st.allowed, w.length = N) :
    ∃ g, letterFreqNextGuess N st r = some g ∧ g.length = N := by
  have hpoolN : ∀ w ∈ (if st.candidates.length ≤ 200 then st.candidates else st.allowed),
      w.length = N := by
    by_cases h2 : st.candidates.length ≤ 200
    · rw [if_pos h2]
      exact hc
    · rw [if_neg h2]
      exact ha
  obtain ⟨best, hbest, hmem, -⟩ := bestByM_spec (fun s b => decide (b < s))
    (fun s b => decide (s = b))
    (fun w => some (distinctScore
      (if st.candidates ≠ [] then joinChars st.candidates else joinChars st.allowed) w))
    (if st.candidates.length ≤ 200 then st.candidates else st.allowed)
    (fun w _ => rfl)
  obtain ⟨g, hg, hgN⟩ := fallback2_spec N best
    (if st.candidates.length ≤ 200 then st.candidates else st.allowed)
    st.allowed st.candidates r (fun w hw => hpoolN w (hmem w hw)) hpoolN ha hc
  exact ⟨g, by simp only [letterFreqNextGuess, hbest, hg], hgN⟩

lemma positionalFreq_total (N : Nat) (st : GameView) (r : Nat)
    (hc : ∀ w ∈ st.candidates, w.length = N) (ha : ∀ w ∈ st.allowed, w.length = N) :
    ∃ g, positionalFreqNextGuess N st r = some g ∧ g.length = N := by
  have hpoolN : ∀ w ∈ (if st.candidates.length ≤ 200 then st.candidates else st.allowed),
      w.length = N := by
    by_cases h2 : st.candidates.length ≤ 200
    · rw [if_pos h2]
      exact hc
    · rw [if_neg h2]
      exact ha
  have hsrcN : ∀ w ∈ (if st.candidates ≠ [] then st.candidates else st.allowed),
      w.length = N := by
    by_cases h2 : st.candidates ≠ []
    · rw [if_pos h2]
      exact hc
    · rw [if_neg h2]
      exact ha
  by_cases hp : (if st.candidates.length ≤ 200 then st.candidates else st.allowed) = []
  · exact ⟨placeholderWord N, by simp only [positionalFreqNextGuess, if_pos hp],
      placeholderWord_length N⟩
  · obtain ⟨cols, hcols, hclen⟩ := buildPosCounts_spec N
      (if st.candidates ≠ [] then st.candidates else st.allowed)
      (fun w hw => le_of_eq (hsrcN w hw))
    obtain ⟨best, hbest, hmem, hbne⟩ := bestByM_spec (fun s b => decide (b < s))
      (fun s b => decide (s = b)) (fun w => plfScoreGo cols w.data [])
      (if st.candidates.length ≤ 200 then st.candidates else st.allowed)
      (fun w hw => plfScoreGo_isSome w.data cols []
        (by rw [hclen]; exact le_of_eq (hpoolN w hw)))
    obtain ⟨g, hg, hgm⟩ := pickIndex_spec best r (hbne hp)
    exact ⟨g, by simp only [positionalFreqNextGuess, if_neg hp, hcols, hbest, hg],
      hpoolN g (hmem g hgm)⟩

lemma entropy_total (lg : Rat → Rat) (N : Nat) (st : GameView) (r : Nat)
    (hc : ∀ w ∈ st.candidates, isCleanWord w = true ∧ w.length = N)
    (ha : ∀ w ∈ st.allowed, isCleanWord w = true ∧ w.length = N) :
    ∃ g, entropyNextGuess lg N st r = some g ∧ g.length = N := by
  have hpoolN : ∀ w ∈ entropySelectPool st, isCleanWord w = true ∧ w.length = N := by
    intro w hw
    rcases entropySelectPool_sub st w hw with h2 | h2
    · exact hc w h2
    · exact ha w h2
  obtain ⟨best, hbest, hmem, -⟩ := bestByM_spec maxThenMinWorst pairEqv
    (fun g => entropyOfGuess lg g st.candidates) (entropySelectPool st)
    (fun w hw => entropyOfGuess_isSome lg w st.candidates N (hpoolN w hw).1
      (hpoolN w hw).2 hc)
  obtain ⟨g, hg, hgN⟩ := fallback2_spec N best (entropySelectPool st) st.allowed
    st.candidates r (fun w hw => (hpoolN w (hmem w hw)).2)
    (fun w hw => (hpoolN w hw).2) (fun w hw => (ha w hw).2) (fun w hw => (hc w hw).2)
  exact ⟨g, by simp only [entropyNextGuess, hbest, hg], hgN⟩

lemma entropyWeighted_total (lg : Rat → Rat) (resetAllowed : List String) (N : Nat)
    (st : GameView) (r : Nat)
    (hc : ∀ w ∈ st.candidates, isCleanWord w = true ∧ w.length = N)
    (ha : ∀ w ∈ st.allowed, isCleanWord w = true ∧ w.length = N) :
    ∃ g, entropyWeightedNextGuess lg resetAllowed N st r = some g ∧ g.length = N := by
  have hpoolN : ∀ w ∈ (if st.candidates.length ≤ 200 then st.candidates
      else (sortDescBy (fun w => ewPrior resetAllowed w) st.allowed).take 400),
      isCleanWord w = true ∧ w.length = N := by
    by_cases h2 : st.candidates.length ≤ 200
    · rw [if_pos h2]
      exact hc
    · rw [if_neg h2]
      intro w hw
      exact ha w (mem_sortDescBy _ w st.allowed (List.take_subset _ _ hw))
  by_cases hp : (if st.candidates.length ≤ 200 then st.candidates
      else (sortDescBy (fun w => ewPrior resetAllowed w) st.allowed).take 400) = []
  · exact ⟨placeholderWord N, by simp only [entropyWeightedNextGuess, if_pos hp],
      placeholderWord_length N⟩
  · obtain ⟨best, hbest, hmem, hbne⟩ := bestByM_spec maxThenMinWorst pairEqv
      (fun g => (weightedEntropy lg g st.candidates (ewPrior resetAllowed)).map
        (fun t => (t.1, t.2.2)))
      (if st.candidates.length ≤ 200 then st.candidates
        else (sortDescBy (fun w => ewPrior resetAllowed w) st.allowed).take 400)
      (fun w hw => by
        obtain ⟨v, hv⟩ := weightedEntropy_isSome lg w st.candidates
          (ewPrior resetAllowed) N (hpoolN w hw).1 (hpoolN w hw).2 hc
        simp only [hv, Option.map_some', Option.isSome_some])
    obtain ⟨g, hg, hgm⟩ := pickIndex_spec best r (hbne hp)
    exact ⟨g, by simp only [entropyWeightedNextGuess, if_neg hp, hbest, hg],
      (hpoolN g (hmem g hgm)).2⟩

lemma expectedLeft_total (N : Nat) (st : GameView) (r : Nat)
    (hc : ∀ w ∈ st.candidates, isCleanWord w = true ∧ w.length = N)
    (ha : ∀ w ∈ st.allowed, isCleanWord w = true ∧ w.length = N) :
    ∃ g, expectedLeftNextGuess N st r = some g ∧ g.length = N := by
  have hpoolN : ∀ w ∈ expectedLeftSelectPool st, isCleanWord w = true ∧ w.length = N := by
    intro w hw
    rcases expectedLeftSelectPool_sub st w hw with h2 | h2
    · exact hc w h2
    · exact ha w h2
  by_cases hp : expectedLeftSelectPool st = []
  · exact ⟨placeholderWord N, by simp only [expectedLeftNextGuess, if_pos hp],
      placeholderWord_length N⟩
  · obtain ⟨best, hbest, hmem, hbne⟩ := bestByM_spec minThenMinWorst natPairEqv
      (fun g => sumC2AndWorst g st.candidates) (expectedLeftSelectPool st)
      (fun w hw => by
        obtain ⟨bs, hbs⟩ := Option.isSome_iff_exists.mp (bucketCounts_isSome w
          st.candidates (fun a ha2 => score_isSome_clean w a N (hpoolN w hw).1
            (hpoolN w hw).2 (hc a ha2).1 (hc a ha2).2))
        simp only [sumC2AndWorst, hbs]
        rfl)
    obtain ⟨g, hg, hgm⟩ := pickIndex_spec best r (hbne hp)
    exact ⟨g, by simp only [expectedLeftNextGuess, if_neg hp, hbest, hg],
      (hpoolN g (hmem g hgm)).2⟩

lemma maxPatterns_total (N : Nat) (st : GameView) (r : Nat)
    (hc : ∀ w ∈ st.candidates, isCleanWord w = true ∧ w.length = N)
    (ha : ∀ w ∈ st.allowed, isCleanWord w = true ∧ w.length = N) :
    ∃ g, maxPatternsNextGuess N st r = some g ∧ g.length = N := by
  have hpoolN : ∀ w ∈ maxPatternsSelectPool st, isCleanWord w = true ∧ w.length = N := by
    intro w hw
    rcases maxPatternsSelectPool_sub st w hw with h2 | h2
    · exact hc w h2
    · exact ha w h2
  by_cases hp : maxPatternsSelectPool st = []
  · exact ⟨placeholderWord N, by simp only [maxPatternsNextGuess, if_pos hp],
      placeholderWord_length N⟩
  · obtain ⟨best, hbest, hmem, hbne⟩ := bestByM_spec maxThenMinWorstNat natPairEqv
      (fun g => patternStats g st.candidates) (maxPatternsSelectPool st)
      (fun w hw => by
        obtain ⟨bs, hbs⟩ := Option.isSome_iff_exists.mp (bucketCounts_isSome w
          st.candidates (fun a ha2 => score_isSome_clean w a N (hpoolN w hw).1
            (hpoolN w hw).2 (hc a ha2).1 (hc a ha2).2))
        simp only [patternStats, hbs]
        rfl)
    obtain ⟨g, hg, hgm⟩ := pickIndex_spec best r (hbne hp)
    exact ⟨g, by simp only [maxPatternsNextGuess, if_neg hp, hbest, hg],
      (hpoolN g (hmem g hgm)).2⟩

lemma twoStageProbe_total (N : Nat) (st : GameView) (r : Nat)
    (hc : ∀ w ∈ st.candidates, w.length = N) (ha : ∀ w ∈ st.allowed, w.length = N)
    (hh : st.turn = 2 → 1200 < st.candidates.length → st.history ≠ []) :
    ∃ g, twoStageProbeNextGuess N st r = some g ∧ g.length = N := by
  by_cases ht1 : st.turn = 1
  · obtain ⟨g, hg, hgN⟩ := pickProbe_spec N st.allowed
      (alphaChars (if st.candidates ≠ [] then st.candidates else st.allowed)) [] r ha
    exact ⟨g, by simp only [twoStageProbeNextGuess, if_pos ht1, hg], hgN⟩
  · by_cases ht2 : st.turn = 2 ∧ 1200 < st.candidates.length
    · have hne : st.history ≠ [] := hh ht2.1 ht2.2
      obtain ⟨e, rest, hH⟩ := List.exists_cons_of_ne_nil hne
      have hhead : st.history.head? = some e := by rw [hH]; rfl
      obtain ⟨g, hg, hgN⟩ := pickProbe_spec N st.allowed
        (alphaChars (if st.candidates ≠ [] then st.candidates else st.allowed))
        ((pyLower e.1).data) r ha
      exact ⟨g, by simp only [twoStageProbeNextGuess, if_neg ht1, if_pos ht2, hhead, hg],
        hgN⟩
    · obtain ⟨g, hg, hgN⟩ := plfPick_spec N st.candidates st.allowed r hc ha
      exact ⟨g, by simp only [twoStageProbeNextGuess, if_neg ht1, if_neg ht2, hg], hgN⟩

lemma twoPlyMc_total (sampler : List String → List String) (N : Nat) (st : GameView)
    (r : Nat)
    (hc : ∀ w ∈ st.candidates, isCleanWord w = true ∧ w.length = N)
    (ha : ∀ w ∈ st.allowed, isCleanWord w = true ∧ w.length = N)
    (hsampler : ∀ l : List String, ∀ w ∈ sampler l, w ∈ l) :
    ∃ g, twoPlyMcNextGuess sampler N st r = some g ∧ g.length = N := by
  by_cases ht : 1 < st.turn
  · obtain ⟨g, hg, hgN, -⟩ := plfPickOnCandidates_spec N st.candidates r hc
    exact ⟨g, by simp only [twoPlyMcNextGuess, if_pos ht, hg], hgN⟩
  · by_cases hp : selectFirstPool st = []
    · exact ⟨placeholderWord N, by simp only [twoPlyMcNextGuess, if_neg ht, if_pos hp],
        placeholderWord_length N⟩
    · have hpoolN : ∀ w ∈ selectFirstPool st, isCleanWord w = true ∧ w.length = N := by
        intro w hw
        rcases selectFirstPool_sub st w hw with h2 | h2
        · exact hc w h2
        · exact ha w h2
      have hsamp : ∀ a ∈ (if st.candidates.length ≤ 32 then st.candidates
          else sampler st.candidates), a ∈ st.candidates := by
        by_cases h2 : st.candidates.length ≤ 32
        · rw [if_pos h2]
          exact fun a haa => haa
        · rw [if_neg h2]
          exact hsampler st.candidates
      obtain ⟨l, hl, hmem, hemp⟩ := twoPlyLoop_spec N st.candidates
        (if st.candidates.length ≤ 32 then st.candidates else sampler st.candidates) r
        (selectFirstPool st) none [] hc hsamp hpoolN (fun hcon => by cases hcon)
      have hlne : l ≠ [] := fun hcon => hp (hemp hcon).1
      obtain ⟨g, hg, hgm⟩ := pickIndex_spec l r hlne
      have hgin : g ∈ selectFirstPool st := by
        rcases hmem g hgm with h2 | h2
        · exact h2
        · cases h2
      exact ⟨g, by simp only [twoPlyMcNextGuess, if_neg ht, if_neg hp, hl, hg],
        (hpoolN g hgin).2⟩

/-- C5 counterexample: `TwoStageProbeSolver.next_guess` raises (returns `none`)
rather than producing a guess when called on turn 2 with more than 1200
candidates and an empty history — `state["history"][0]` is an `IndexError` —
so not every registered solver returns a word of length N on every state. -/
theorem solver_empty_history_cex :
    nextGuessOf SolverId.two_stage_probe (fun x => x) (fun l => l) [] 5
      ⟨2, [], List.replicate 1201 "aaaaa", ["aaaaa"], 5⟩ 0 = none := by
  show twoStageProbeNextGuess 5 ⟨2, [], List.replicate 1201 "aaaaa", ["aaaaa"], 5⟩ 0
    = none
  set_option maxRecDepth 40000 in rfl

/-- C5 (corrected): for every registered solver, `next_guess` on a reset-time
state whose candidate and allowed words all have length `N` and are clean
(lower-case alphabetic, as `reset`/`filter_candidates` guarantee) — including
states where the candidate pool, or both pools, are empty — returns a word of
length `N` without raising, falling back to the allowed pool or to the
placeholder `"a" * N`; amended to require a nonempty history whenever the
turn is 2 and more than 1200 candidates remain, since `TwoStageProbeSolver`
reads `history[0]` there. -/
theorem solvers_total (sid : SolverId) (lg : Rat → Rat)
    (sampler : List String → List String) (resetAllowed : List String) (N : Nat)
    (st : GameView) (r : Nat)
    (hc : ∀ w ∈ st.candidates, isCleanWord w = true ∧ w.length = N)
    (ha : ∀ w ∈ st.allowed, isCleanWord w = true ∧ w.length = N)
    (hsampler : ∀ l : List String, ∀ w ∈ sampler l, w ∈ l)
    (hh : st.turn = 2 → 1200 < st.candidates.length → st.history ≠ []) :
    ∃ g, nextGuessOf sid lg sampler resetAllowed N st r = some g ∧ g.length = N := by
  cases sid with
  | random_consistent =>
    exact randomConsistent_total N st r (fun w hw => (hc w hw).2) (fun w hw => (ha w hw).2)
  | letter_freq =>
    exact letterFreq_total N st r (fun w hw => (hc w hw).2) (fun w hw => (ha w hw).2)
  | positional_freq =>
    exact positionalFreq_total N st r (fun w hw => (hc w hw).2) (fun w hw => (ha w hw).2)
  | entropy => exact entropy_total lg N st r hc ha
  | entropy_weighted => exact entropyWeighted_total lg resetAllowed N st r hc ha
  | expected_left => exact expectedLeft_total N st r hc ha
  | max_patterns => exact maxPatterns_total N st r hc ha
  | two_stage_probe =>
    exact twoStageProbe_total N st r (fun w hw => (hc w hw).2) (fun w hw => (ha w hw).2) hh
  | two_ply_mc => exact twoPlyMc_total sampler N st r hc ha hsampler

/-- Witness for C5: the letter-frequency solver at a concrete two-word state
produces a length-5 guess. -/
theorem solvers_total_witness :
    ∃ g, nextGuessOf SolverId.letter_freq (fun x => x) (fun l => l) [] 5
      ⟨1, [], ["crane"], ["crane", "slate"], 5⟩ 0 = some g ∧ g.length = 5 :=
  solvers_total SolverId.letter_freq (fun x => x) (fun l => l) [] 5
    ⟨1, [], ["crane"], ["crane", "slate"], 5⟩ 0 (by decide) (by decide)
    (fun l w hw => hw) (fun h1 => absurd h1 (by decide))
